import Mathlib

/-!
Verification development for the `pythonfinder` discovery engine
(`src/pythonfinder/models/python.py`).

The Python source is shallowly embedded: pure methods become Lean
functions, raising code returns `Except`, the global `lru_cache`s and the
`__getattribute__` lazy-probe machinery become explicit state passing, and
the external filesystem-entry collaborator is a plain data value giving the
results of its narrow interface.
-/

namespace PythonFinderModel

/-- Error kinds raised by the embedded code: `ValueError` / `TypeError` /
`KeyError` as in the Python source (`InvalidPythonVersion` is a
`ValueError` subclass for our purposes: both are caught together). -/
inductive PyErr where
  | valueError
  | typeError
  | keyError
deriving DecidableEq, Repr

/-- The parsed-field dictionary produced by `parse_python_version` /
`PythonVersion.parse`: keys `major`, `minor`, `patch`, the four release
flags and the inferred distributor (`company`). -/
structure VDict where
  major : Nat
  minor : Option Nat
  patch : Option Nat
  is_prerelease : Bool
  is_postrelease : Bool
  is_devrelease : Bool
  is_debug : Bool
  company : Option String
deriving DecidableEq, Repr

/-- The `PythonVersion` attrs class (src/pythonfinder/models/python.py,
class `PythonVersion`).  `comes_from` is modelled by the path of the
`PathEntry` it points to (the only thing the embedded code reads from it). -/
structure PythonVersion where
  major : Nat := 0
  minor : Option Nat := none
  patch : Option Nat := none
  is_prerelease : Bool := false
  is_postrelease : Bool := false
  is_devrelease : Bool := false
  is_debug : Bool := false
  architecture : Option String := none
  comes_from : Option String := none
  executable : Option String := none
  company : Option String := none
  name : Option String := none
deriving DecidableEq, Repr

/-- The 5-tuple returned by the `version_sort` property; only the `minor`
slot can hold Python `None`. -/
structure VSKey where
  companyK : Nat
  majorK : Nat
  minorK : Option Nat
  patchK : Nat
  releaseK : Nat
deriving DecidableEq, Repr

/-- `PythonVersion.version_sort` (property): `company_sort` is 1 exactly
for company `"PythonCore"`; `release_sort` is 3 for postrelease, 1 for
prerelease, 0 for devrelease, 1 for debug, else 2 (the `elif` chain of the
source); the patch slot is `self.patch if self.patch else 0` (so an unset
or zero patch both give 0), while the minor slot is passed through raw.
Field reads are modelled on the stored fields: this is the value of the
property once lazy minor/patch resolution is settled (instances whose
`minor`/`patch` are set, or which expose no executable to probe). -/
def PythonVersion.version_sort (v : PythonVersion) : VSKey :=
  { companyK := if v.company = some "PythonCore" then 1 else 0
    majorK := v.major
    minorK := v.minor
    patchK := match v.patch with
      | none => 0
      | some p => if p = 0 then 0 else p
    releaseK :=
      if v.is_postrelease then 3
      else if v.is_prerelease then 1
      else if v.is_devrelease then 0
      else if v.is_debug then 1
      else 2 }

/-- `PythonVersion.version_tuple` (property): the dedup key
`(major, minor, patch, is_prerelease, is_devrelease, is_debug)`. -/
def PythonVersion.version_tuple (v : PythonVersion) :
    Nat × Option Nat × Option Nat × Bool × Bool × Bool :=
  (v.major, v.minor, v.patch, v.is_prerelease, v.is_devrelease, v.is_debug)

/-- Three-way comparison on `Nat`, mirroring Python `int` comparison. -/
def natCmp (a b : Nat) : Ordering :=
  if a < b then .lt else if b < a then .gt else .eq

/-- Python comparison of a tuple slot that may hold `None`: `None == None`
is `True` (slots equal, comparison moves on), `int` against `int` compares
numerically, and `None` against an `int` raises `TypeError`. -/
def optCmpE : Option Nat → Option Nat → Except Unit Ordering
  | none, none => .ok .eq
  | some a, some b => .ok (natCmp a b)
  | none, some _ => .error ()
  | some _, none => .error ()

/-- Python's lexicographic comparison of two `version_sort` tuples, as
performed by `sorted(..., key=...)`: walk the slots, skip equal ones,
decide at the first unequal slot; comparing `None` with an `int` raises. -/
def vsCompare (a b : VSKey) : Except Unit Ordering :=
  match natCmp a.companyK b.companyK with
  | .eq =>
    match natCmp a.majorK b.majorK with
    | .eq =>
      match optCmpE a.minorK b.minorK with
      | .error e => .error e
      | .ok .eq =>
        match natCmp a.patchK b.patchK with
        | .eq => .ok (natCmp a.releaseK b.releaseK)
        | o => .ok o
      | .ok o => .ok o
    | o => .ok o
  | o => .ok o

/-- A plain release: none of the four release-kind flags is set. -/
def PythonVersion.plainRelease (v : PythonVersion) : Prop :=
  ¬v.is_postrelease ∧ ¬v.is_prerelease ∧ ¬v.is_devrelease ∧ ¬v.is_debug

/-- At most one of the four release-kind flags is set. -/
def PythonVersion.atMostOneFlag (v : PythonVersion) : Prop :=
  ((if v.is_postrelease then 1 else 0) + (if v.is_prerelease then 1 else 0)
      + (if v.is_devrelease then 1 else 0) + (if v.is_debug then 1 else 0) : Nat) ≤ 1

instance (v : PythonVersion) : Decidable v.plainRelease := by
  unfold PythonVersion.plainRelease; infer_instance

instance (v : PythonVersion) : Decidable v.atMostOneFlag := by
  unfold PythonVersion.atMostOneFlag; infer_instance

theorem natCmp_self (n : Nat) : natCmp n n = .eq := by
  simp [natCmp]

theorem optCmpE_self (o : Option Nat) : optCmpE o o = .ok .eq := by
  cases o <;> simp [optCmpE, natCmp_self]

/-- When two keys agree on the company, major, minor and patch slots, the
Python tuple comparison reduces to comparing the release-rank slots. -/
theorem vsCompare_of_prefix_eq {a b : VSKey} (hc : a.companyK = b.companyK)
    (hm : a.majorK = b.majorK) (hmi : a.minorK = b.minorK)
    (hp : a.patchK = b.patchK) :
    vsCompare a b = .ok (natCmp a.releaseK b.releaseK) := by
  unfold vsCompare
  rw [hc, hm, hmi, hp, natCmp_self, natCmp_self, optCmpE_self, natCmp_self]

/-- The release-rank slot of `version_sort` as a function of the four
flags, matching the source's `elif` chain. -/
theorem version_sort_releaseK (v : PythonVersion) :
    v.version_sort.releaseK =
      (if v.is_postrelease then 3
       else if v.is_prerelease then 1
       else if v.is_devrelease then 0
       else if v.is_debug then 1
       else 2 : Nat) := rfl

/-- Pure arithmetic core of claim C1, over the eight flag booleans. -/
theorem releaseRank_ordering :
    ∀ p1 q1 d1 g1 p2 q2 d2 g2 : Bool,
      ((if p1 then 1 else 0) + (if q1 then 1 else 0) + (if d1 then 1 else 0)
          + (if g1 then 1 else 0) : Nat) ≤ 1 →
      ((if p2 then 1 else 0) + (if q2 then 1 else 0) + (if d2 then 1 else 0)
          + (if g2 then 1 else 0) : Nat) ≤ 1 →
      ((p1 = true ∧ p2 = false →
          natCmp (if p1 then 3 else if q1 then 1 else if d1 then 0 else if g1 then 1 else 2)
            (if p2 then 3 else if q2 then 1 else if d2 then 0 else if g2 then 1 else 2) = .gt)
        ∧ ((p1 = false ∧ q1 = false ∧ d1 = false ∧ g1 = false) ∧
              (q2 = true ∨ g2 = true ∨ d2 = true) →
          natCmp (if p1 then 3 else if q1 then 1 else if d1 then 0 else if g1 then 1 else 2)
            (if p2 then 3 else if q2 then 1 else if d2 then 0 else if g2 then 1 else 2) = .gt)
        ∧ ((q1 = true ∨ g1 = true) ∧ d2 = true →
          natCmp (if p1 then 3 else if q1 then 1 else if d1 then 0 else if g1 then 1 else 2)
            (if p2 then 3 else if q2 then 1 else if d2 then 0 else if g2 then 1 else 2) = .gt)
        ∧ (q1 = true ∧ g2 = true →
          natCmp (if p1 then 3 else if q1 then 1 else if d1 then 0 else if g1 then 1 else 2)
            (if p2 then 3 else if q2 then 1 else if d2 then 0 else if g2 then 1 else 2) = .eq)
        ∧ (g1 = true ∧ q2 = true →
          natCmp (if p1 then 3 else if q1 then 1 else if d1 then 0 else if g1 then 1 else 2)
            (if p2 then 3 else if q2 then 1 else if d2 then 0 else if g2 then 1 else 2) = .eq)) := by
  intro p1 q1 d1 g1 p2 q2 d2 g2
  cases p1 <;> cases q1 <;> cases d1 <;> cases g1 <;> cases p2 <;> cases q2 <;> cases d2
    <;> cases g2 <;> decide

/-- C1: for two `PythonVersion` instances with the same company and equal
`(major, minor, patch)` and at most one release-kind flag set each,
`version_sort` orders them postrelease > plain release > (prerelease or
debug, which tie) > devrelease, under Python's tuple comparison. -/
theorem c1_version_sort_release_ordering (a b : PythonVersion)
    (hco : a.company = b.company) (hma : a.major = b.major)
    (hmi : a.minor = b.minor) (hpa : a.patch = b.patch)
    (ha : a.atMostOneFlag) (hb : b.atMostOneFlag) :
    (a.is_postrelease ∧ ¬b.is_postrelease →
        vsCompare a.version_sort b.version_sort = .ok .gt)
    ∧ (a.plainRelease ∧ (b.is_prerelease ∨ b.is_debug ∨ b.is_devrelease) →
        vsCompare a.version_sort b.version_sort = .ok .gt)
    ∧ ((a.is_prerelease ∨ a.is_debug) ∧ b.is_devrelease →
        vsCompare a.version_sort b.version_sort = .ok .gt)
    ∧ (a.is_prerelease ∧ b.is_debug →
        vsCompare a.version_sort b.version_sort = .ok .eq)
    ∧ (a.is_debug ∧ b.is_prerelease →
        vsCompare a.version_sort b.version_sort = .ok .eq) := by
  have hkey : vsCompare a.version_sort b.version_sort
      = .ok (natCmp a.version_sort.releaseK b.version_sort.releaseK) := by
    apply vsCompare_of_prefix_eq
    · simp [PythonVersion.version_sort, hco]
    · simp [PythonVersion.version_sort, hma]
    · simp [PythonVersion.version_sort, hmi]
    · simp [PythonVersion.version_sort, hpa]
  have h := releaseRank_ordering a.is_postrelease a.is_prerelease a.is_devrelease a.is_debug
    b.is_postrelease b.is_prerelease b.is_devrelease b.is_debug ha hb
  rw [hkey, version_sort_releaseK, version_sort_releaseK]
  unfold PythonVersion.plainRelease
  refine ⟨fun hc => ?_, fun hc => ?_, fun hc => ?_, fun hc => ?_, fun hc => ?_⟩
  · exact congrArg Except.ok (h.1 ⟨hc.1, by simpa using hc.2⟩)
  · refine congrArg Except.ok (h.2.1 ⟨?_, ?_⟩)
    · obtain ⟨h1, h2, h3, h4⟩ := hc.1
      exact ⟨by simpa using h1, by simpa using h2, by simpa using h3, by simpa using h4⟩
    · rcases hc.2 with h' | h' | h'
      · exact .inl h'
      · exact .inr (.inl h')
      · exact .inr (.inr h')
  · exact congrArg Except.ok (h.2.2.1 ⟨hc.1, hc.2⟩)
  · exact congrArg Except.ok (h.2.2.2.1 ⟨hc.1, hc.2⟩)
  · exact congrArg Except.ok (h.2.2.2.2 ⟨hc.1, hc.2⟩)

/-- Witness for C1 at concrete inputs: a 3.9.1 postrelease against a plain
3.9.1 release of the same company. -/
theorem c1_version_sort_release_ordering_witness :
    (let a : PythonVersion :=
      { major := 3, minor := some 9, patch := some 1, is_postrelease := true }
     let b : PythonVersion := { major := 3, minor := some 9, patch := some 1 }
     vsCompare a.version_sort b.version_sort = .ok .gt) := by
  have h := c1_version_sort_release_ordering
    { major := 3, minor := some 9, patch := some 1, is_postrelease := true }
    { major := 3, minor := some 9, patch := some 1 }
    rfl rfl rfl rfl (by decide) (by decide)
  exact h.1 ⟨rfl, by decide⟩

/-! ## `PythonVersion.matches` and claim C7 -/

/-- Python truthiness of an optional string: `None` and `""` are falsy. -/
def strTruthy : Option String → Bool
  | none => false
  | some s => s != ""

/-- Python `str.isdigit` (restricted to ASCII digits): true for a
non-empty all-digit string. -/
def pyIsDigit (s : String) : Bool :=
  (s != "") && s.all Char.isDigit

/-- The external `platform.architecture` collaborator: the architecture
string reported for a binary path, plus the running interpreter's own
architecture (the `sys.executable` fallback). -/
structure ArchEnv where
  ofPath : String → String
  sysArch : String

/-- The probing part of `get_architecture`: architecture of `comes_from`
if set, else of `executable`, else of the running interpreter
(`platform.architecture` always returns a string, so the
`if arch is None` fallback fires exactly when neither path is known). -/
def archProbe (env : ArchEnv) (v : PythonVersion) : String :=
  match v.comes_from with
  | some p => env.ofPath p
  | none =>
    match v.executable with
    | some e => env.ofPath e
    | none => env.sysArch

/-- `PythonVersion.get_architecture`: an explicit truthy `architecture`
field wins, else the binary is probed.  (The source also caches the probed
value back onto `self.architecture`; the returned value is the same.) -/
def PythonVersion.get_architecture (env : ArchEnv) (v : PythonVersion) : String :=
  match v.architecture with
  | some a => if a = "" then archProbe env v else a
  | none => archProbe env v

/-- The trailing name clause of the `matches` condition:
`python_name is None or (python_name and self.name) and
(self.name == python_name or self.name.startswith(python_name))`,
with Python truthiness for the empty string. -/
def nameClause (v : PythonVersion) (python_name : Option String) : Bool :=
  match python_name with
  | none => true
  | some pn =>
    (pn != "") &&
      (match v.name with
       | none => false
       | some n => (n != "") && (n == pn || n.startsWith pn))

/-- `PythonVersion.matches`.  The `own_arch` local of the source is bound
only inside `if arch:`; when `arch` is a truthy-false non-`None` value
(the empty string) the comparison `own_arch == arch` reads an unbound
local, which raises `UnboundLocalError` — modelled as `.error ()`.  Field
reads are modelled on the stored fields, i.e. for instances whose lazy
minor/patch resolution is settled (minor/patch set, or no executable or
source location to probe). -/
def PythonVersion.matches (v : PythonVersion) (env : ArchEnv)
    (major minor patch : Option Nat) (pre dev : Option Bool)
    (arch : Option String) (debug : Option Bool)
    (python_name : Option String) : Except Unit Bool :=
  let ownArch : Option String :=
    if strTruthy arch then some (v.get_architecture env) else none
  let archT : Option String :=
    if strTruthy arch then
      arch.map (fun a => if pyIsDigit a then a ++ "bit" else a)
    else arch
  if !(major.all (fun m => v.major == m)) then .ok false
  else if !(minor.all (fun m => v.minor == some m)) then .ok false
  else if !(patch.all (fun p => v.patch == some p)) then .ok false
  else if !(pre.all (fun b => v.is_prerelease == b)) then .ok false
  else if !(dev.all (fun b => v.is_devrelease == b)) then .ok false
  else
    let afterArch : Except Unit Bool :=
      if !(debug.all (fun b => v.is_debug == b)) then .ok false
      else .ok (nameClause v python_name)
    match archT with
    | none => afterArch
    | some a =>
      match ownArch with
      | none => .error ()
      | some oa => if oa == a then afterArch else .ok false

/-- C7 counterexample: on a plain 3.9.1 instance, `matches` with the
predicate `arch=""` raises (`own_arch` referenced before assignment)
instead of returning a boolean, so `matches` does not return a boolean for
every predicate argument combination. -/
theorem c7_matches_counterexample :
    PythonVersion.matches { major := 3, minor := some 9, patch := some 1 }
      ⟨fun _ => "64bit", "64bit"⟩ none none none none none (some "") none none
      = .error () := rfl

theorem optCmpE_ok_of_aligned {x y : Option Nat} (h : x.isSome = y.isSome) :
    ∃ o, optCmpE x y = .ok o := by
  cases x <;> cases y <;> simp_all [optCmpE]

/-- C7 (amended): `matches` returns a boolean without raising whenever the
`arch` predicate argument is not the empty string, and comparing the
`version_sort` keys of two instances never raises when the two agree on
whether `minor` is set (both set or both unset). -/
theorem c7_matches_and_sort_no_raise :
    (∀ (v : PythonVersion) (env : ArchEnv) (major minor patch : Option Nat)
        (pre dev : Option Bool) (arch : Option String) (debug : Option Bool)
        (python_name : Option String), (∀ s, arch = some s → s ≠ "") →
        ∃ b, v.matches env major minor patch pre dev arch debug python_name = .ok b)
    ∧ (∀ a b : PythonVersion, a.minor.isSome = b.minor.isSome →
        ∃ o, vsCompare a.version_sort b.version_sort = .ok o) := by
  constructor
  · intro v env major minor patch pre dev arch debug python_name harch
    unfold PythonVersion.matches
    cases arch with
    | none =>
      have hT : strTruthy none = false := rfl
      simp only [hT, Bool.false_eq_true, if_false]
      repeat' split
      all_goals exact ⟨_, rfl⟩
    | some s =>
      have hs : s ≠ "" := harch s rfl
      have hT : strTruthy (some s) = true := by
        simp [strTruthy, hs]
      simp only [hT, if_true, Option.map_some]
      repeat' split
      all_goals exact ⟨_, rfl⟩
  · intro a b h
    have hm : a.version_sort.minorK.isSome = b.version_sort.minorK.isSome := h
    obtain ⟨o, ho⟩ := optCmpE_ok_of_aligned hm
    unfold vsCompare
    cases natCmp a.version_sort.companyK b.version_sort.companyK
    · exact ⟨.lt, rfl⟩
    · cases natCmp a.version_sort.majorK b.version_sort.majorK
      · exact ⟨.lt, rfl⟩
      · rw [ho]
        cases o
        · exact ⟨.lt, rfl⟩
        · cases natCmp a.version_sort.patchK b.version_sort.patchK
          · exact ⟨.lt, rfl⟩
          · exact ⟨_, rfl⟩
          · exact ⟨.gt, rfl⟩
        · exact ⟨.gt, rfl⟩
      · exact ⟨.gt, rfl⟩
    · exact ⟨.gt, rfl⟩

/-- Witness for C7 (amended) at concrete inputs: a 3.9.1 instance matched
with `arch="64"` and two instances with set minors compared. -/
theorem c7_matches_and_sort_no_raise_witness :
    (∃ b, PythonVersion.matches { major := 3, minor := some 9, patch := some 1 }
        ⟨fun _ => "64bit", "64bit"⟩ (some 3) none none none none (some "64") none none
        = .ok b)
    ∧ (∃ o, vsCompare
        (PythonVersion.version_sort { major := 3, minor := some 9, patch := some 1 })
        (PythonVersion.version_sort { major := 3, minor := some 10, patch := some 0 })
        = .ok o) :=
  ⟨c7_matches_and_sort_no_raise.1 { major := 3, minor := some 9, patch := some 1 }
      ⟨fun _ => "64bit", "64bit"⟩ (some 3) none none none none (some "64") none none
      (by intro s h; cases h; decide),
   c7_matches_and_sort_no_raise.2 { major := 3, minor := some 9, patch := some 1 }
      { major := 3, minor := some 10, patch := some 0 } rfl⟩


/-! ## Version-string parsing and claim C8 -/

/-- First-match association-list lookup (Python `dict` access semantics on
a uniquely-keyed list). -/
def assocFind {κ β : Type} [DecidableEq κ] : List (κ × β) → κ → Option β
  | [], _ => none
  | kv :: rest, k => if kv.1 = k then some kv.2 else assocFind rest k

/-- Split a character list on a separator character. -/
def splitChar (sep : Char) : List Char → List (List Char)
  | [] => [[]]
  | c :: rest =>
    match splitChar sep rest with
    | [] => [[]]
    | cur :: parts => if c = sep then [] :: cur :: parts else (c :: cur) :: parts

/-- Whether the second list is a prefix of the first. -/
def hasPrefixL : List Char → List Char → Bool
  | _, [] => true
  | [], _ :: _ => false
  | c :: cs, p :: ps => c == p && hasPrefixL cs ps

/-- Parse a non-empty all-digit character list into a `Nat`. -/
def digitsToNat? : List Char → Option Nat
  | [] => none
  | l =>
    l.foldl
      (fun acc c =>
        acc.bind fun n => if c.isDigit then some (n * 10 + (c.toNat - 48)) else none)
      (some 0)

/-- Recognize a suffix tag: the given word followed by at least one
digit (e.g. `a1`, `rc2`, `dev0`, `post1`). -/
def tagSuffix (word : List Char) (s : List Char) : Bool :=
  hasPrefixL s word && !(s.drop word.length).isEmpty
    && (s.drop word.length).all Char.isDigit

/-- Recognize a prerelease suffix: `a`, `b`, `c` or `rc` followed by at
least one digit (the `a1` of `3.9.1a1`). -/
def isPreSuffix (s : List Char) : Bool :=
  tagSuffix ['r', 'c'] s || tagSuffix ['a'] s || tagSuffix ['b'] s || tagSuffix ['c'] s

/-- A parsed-field dictionary with the given numeric fields and flags and
no distributor. -/
def mkVDict (M : Nat) (mi pa : Option Nat) (pre post dev : Bool) : VDict :=
  { major := M, minor := mi, patch := pa, is_prerelease := pre,
    is_postrelease := post, is_devrelease := dev, is_debug := false,
    company := none }

/-- Parse the dot-separated numeric core `major[.minor[.patch]]` with an
optional prerelease suffix on the patch component or a trailing
`devN`/`postN` component. -/
def parseCore : List (List Char) → Option VDict
  | [maj] => (digitsToNat? maj).map fun M => mkVDict M none none false false false
  | [maj, mi] =>
    (digitsToNat? maj).bind fun M =>
      (digitsToNat? mi).map fun m => mkVDict M (some m) none false false false
  | [maj, mi, pa] =>
    (digitsToNat? maj).bind fun M =>
      (digitsToNat? mi).bind fun m =>
        let digits := pa.takeWhile Char.isDigit
        let rest := pa.dropWhile Char.isDigit
        (digitsToNat? digits).bind fun P =>
          if rest.isEmpty then some (mkVDict M (some m) (some P) false false false)
          else if isPreSuffix rest then
            some (mkVDict M (some m) (some P) true false false)
          else none
  | [maj, mi, pa, last] =>
    (digitsToNat? maj).bind fun M =>
      (digitsToNat? mi).bind fun m =>
        (digitsToNat? pa).bind fun P =>
          if tagSuffix ['d', 'e', 'v'] last then
            some (mkVDict M (some m) (some P) false false true)
          else if tagSuffix ['p', 'o', 's', 't'] last then
            some (mkVDict M (some m) (some P) false true false)
          else none
  | _ => none

/-- The trailing `-debug` marker, as a character list. -/
def debugTag : List Char := ['-', 'd', 'e', 'b', 'u', 'g']

/-- Modelled from the spec: `parse_python_version` (in
`pythonfinder.utils`, not under src/) — "numeric major[.minor[.patch]]
with optional prerelease/dev/postrelease/debug suffixes and optional
distributor prefix such as `anaconda3-5.3.0`"; returns `None` for an
unrecognized string. -/
def parse_python_version (s : String) : Option VDict :=
  let l := s.toList
  let isDebug := hasPrefixL l.reverse debugTag.reverse
  let l1 := if isDebug then l.take (l.length - 6) else l
  match splitChar '-' l1 with
  | [v] => (parseCore (splitChar '.' v)).map fun d => { d with is_debug := isDebug }
  | [c, v] =>
    (parseCore (splitChar '.' v)).map fun d =>
      { d with is_debug := isDebug, company := some (String.mk c) }
  | _ => none

/-- `PythonVersion.parse` (classmethod) without its cache: defer to
`parse_python_version` and raise `ValueError` when it yields nothing.
(The `TypeError` branch guards a `None` argument, which cannot arise for a
`String`.)  The `lru_cache` wrapping is modelled by `parseCached`. -/
def PythonVersion.parse (s : String) : Except PyErr VDict :=
  match parse_python_version s with
  | none => .error .valueError
  | some d => .ok d

/-- A state of the `lru_cache` on `PythonVersion.parse`: successful
results keyed by the exact input string (exceptions are never cached by
`lru_cache`; eviction only removes entries, so any reachable state is a
list of previously computed successes). -/
def CacheOK (c : List (String × VDict)) : Prop :=
  ∀ p ∈ c, parse_python_version p.1 = some p.2

/-- The cached `parse` entry point: consult the cache, else compute and
(on success) record. -/
def parseCached (c : List (String × VDict)) (s : String) :
    Except PyErr VDict × List (String × VDict) :=
  match assocFind c s with
  | some d => (.ok d, c)
  | none =>
    match PythonVersion.parse s with
    | .error e => (.error e, c)
    | .ok d => (.ok d, (s, d) :: c)

theorem assocFind_mem {κ β : Type} [DecidableEq κ] {l : List (κ × β)} {k : κ}
    {v : β} (h : assocFind l k = some v) : (k, v) ∈ l := by
  induction l with
  | nil => simp [assocFind] at h
  | cons kv rest ih =>
    by_cases hk : kv.1 = k
    · simp only [assocFind, if_pos hk] at h
      cases h
      have hkv : (k, kv.2) = kv := by rw [← hk]
      rw [hkv]
      exact List.mem_cons_self _ _
    · simp only [assocFind, if_neg hk] at h
      exact List.mem_cons_of_mem _ (ih h)

theorem parse_eq_ok_iff {s : String} {d : VDict} :
    PythonVersion.parse s = .ok d ↔ parse_python_version s = some d := by
  unfold PythonVersion.parse
  cases h : parse_python_version s
  · simp
  · simp

theorem parseCached_eq_parse {c : List (String × VDict)} (hc : CacheOK c)
    (s : String) : (parseCached c s).1 = PythonVersion.parse s := by
  unfold parseCached
  cases hfind : assocFind c s with
  | some d =>
    have hmem := hc _ (assocFind_mem hfind)
    have : PythonVersion.parse s = .ok d := parse_eq_ok_iff.mpr hmem
    rw [this]
  | none =>
    cases hp : PythonVersion.parse s <;> rfl

/-- C8: `PythonVersion.parse` is a memoized pure function of its exact
input string — against any two reachable cache states (in particular ones
differing by interleaved operations that populated the cache further), the
call returns the same parsed-field dictionary, namely the uncached parse
result, and leaves the cache in a valid state. -/
theorem c8_parse_memoized_pure (s : String) (c1 c2 : List (String × VDict))
    (h1 : CacheOK c1) (h2 : CacheOK c2) :
    (parseCached c1 s).1 = PythonVersion.parse s
    ∧ (parseCached c1 s).1 = (parseCached c2 s).1
    ∧ CacheOK (parseCached c1 s).2 := by
  refine ⟨parseCached_eq_parse h1 s,
    (parseCached_eq_parse h1 s).trans (parseCached_eq_parse h2 s).symm, ?_⟩
  unfold parseCached
  cases hfind : assocFind c1 s with
  | some d => exact h1
  | none =>
    cases hp : PythonVersion.parse s with
    | error e => exact h1
    | ok d =>
      intro p hp'
      cases hp' with
      | head => exact parse_eq_ok_iff.mp hp
      | tail _ hmem => exact h1 _ hmem

/-- Witness for C8 at a concrete input: the string "3.9.1" parsed against
the empty cache and against a cache already holding an entry for it. -/
theorem c8_parse_memoized_pure_witness :
    (parseCached [] "3.9.1").1 = PythonVersion.parse "3.9.1"
    ∧ (parseCached [] "3.9.1").1
        = (parseCached [("3.9.1", mkVDict 3 (some 9) (some 1) false false false)] "3.9.1").1
    ∧ CacheOK (parseCached [] "3.9.1").2 :=
  c8_parse_memoized_pure "3.9.1" []
    [("3.9.1", mkVDict 3 (some 9) (some 1) false false false)]
    (by intro p hp; cases hp)
    (by
      intro p hp
      cases hp with
      | head => rfl
      | tail _ h => cases h)

/-! ## Candidate resolution (`_iter_versions`) and claims C2, C10 -/

/-- A location produced by the external filesystem-entry collaborator: an
executable (or directory) path together with its best-effort resolved
version (`py_version` / `as_python`; `none` when unresolved). -/
structure Location where
  path : String
  as_python : Option PythonVersion
deriving DecidableEq, Repr

/-- A root `PathEntry` handed back by `PathEntry.create` for one candidate
subdirectory's executable directory: its `name` is the candidate
directory's name, and `pythons` are the results of its
`find_all_python_versions()` enumeration of runnable executables. -/
structure RootEntry where
  name : String
  path : String
  pythons : List Location
deriving DecidableEq, Repr

/-- One enumerated candidate of `_iter_version_bases`: the candidate
subdirectory (`base_path`) and the root entry created for its executable
directory. -/
structure Candidate where
  basePath : String
  entry : RootEntry
deriving DecidableEq, Repr

/-- The dedup tuple built by `_iter_versions` from a parsed-field
dictionary via `version.get(...)`. -/
abbrev VTuple := Nat × Option Nat × Option Nat × Bool × Bool × Bool

instance : DecidableEq (VTuple × List Location) :=
  fun a b =>
    match a, b with
    | (k1, l1), (k2, l2) =>
      if h : k1 = k2 ∧ l1 = l2 then isTrue (by rw [h.1, h.2])
      else isFalse (fun he => h (by cases he; exact ⟨rfl, rfl⟩))

instance : DecidableEq (VTuple × RootEntry) :=
  fun a b =>
    match a, b with
    | (k1, e1), (k2, e2) =>
      if h : k1 = k2 ∧ e1 = e2 then isTrue (by rw [h.1, h.2])
      else isFalse (fun he => h (by cases he; exact ⟨rfl, rfl⟩))

/-- The dedup tuple of a parsed dictionary. -/
def tupleOfDict (d : VDict) : VTuple :=
  (d.major, d.minor, d.patch, d.is_prerelease, d.is_devrelease, d.is_debug)

/-- `PythonVersion.as_dict`. -/
def PythonVersion.as_dict (v : PythonVersion) : VDict :=
  { major := v.major, minor := v.minor, patch := v.patch,
    is_prerelease := v.is_prerelease, is_postrelease := v.is_postrelease,
    is_devrelease := v.is_devrelease, is_debug := v.is_debug,
    company := v.company }

/-- One step of `PythonFinder._iter_versions` for a single candidate.
`PythonVersion.parse(entry.name)` is attempted; in the
`except (ValueError, InvalidPythonVersion)` branch `version_entry` is
computed, but `version` is still `None` there (the parse raised before
any assignment), so the `if version is None` test always fires: the
candidate is skipped in tolerant mode and the exception re-raised in
strict mode, and the `version_entry` fallback below it is dead code. -/
def iterVersionsOne (ignore_unsupported : Bool) (c : Candidate) :
    Except PyErr (Option VTuple) :=
  match PythonVersion.parse c.entry.name with
  | .ok version => .ok (some (tupleOfDict version))
  | .error e =>
    let version_entry := c.entry.pythons.head?
    let version : Option VDict := none
    match version with
    | none => if ¬ ignore_unsupported then .error e else .ok none
    | some _ =>
      let fallback : Option VDict :=
        match version_entry with
        | some ve => ve.as_python.map PythonVersion.as_dict
        | none => version
      .ok (fallback.map tupleOfDict)

/-- `PythonFinder._iter_versions` over the enumerated candidates: collect
the per-candidate dedup tuples, skipping `.ok none` results and aborting
on the first propagated error. -/
def iterVersions (ignore_unsupported : Bool) :
    List Candidate → Except PyErr (List (Candidate × VTuple))
  | [] => .ok []
  | c :: cs =>
    match iterVersionsOne ignore_unsupported c with
    | .error e => .error e
    | .ok none => iterVersions ignore_unsupported cs
    | .ok (some t) => (iterVersions ignore_unsupported cs).map (fun l => (c, t) :: l)

/-- A candidate whose directory name does not parse but which contains a
runnable executable resolving to Python 3.9.1. -/
def candUnparsable : Candidate :=
  { basePath := "/opt/pyenv/versions/my-custom-py",
    entry :=
      { name := "my-custom-py",
        path := "/opt/pyenv/versions/my-custom-py/bin",
        pythons :=
          [{ path := "/opt/pyenv/versions/my-custom-py/bin/python",
             as_python := some
               { major := 3, minor := some 9, patch := some 1,
                 executable := some "/opt/pyenv/versions/my-custom-py/bin/python" } }] } }

/-- C2 (code bug): evaluated at a candidate whose name fails to parse but
which contains a runnable executable resolving to 3.9.1, `_iter_versions`
yields nothing in tolerant mode and propagates the error in strict mode —
the claimed fallback to the first executable's resolved version never
happens, because the `version = version_entry.py_version.as_dict()`
branch is unreachable (`version` is necessarily `None` in the handler). -/
theorem c2_fallback_unreachable :
    iterVersions true [candUnparsable] = .ok []
    ∧ iterVersions false [candUnparsable] = .error .valueError :=
  ⟨rfl, rfl⟩

/-- Python dict item assignment `m[k] = v` on an insertion-ordered dict:
replace in place when the key exists, else append. -/
def dictUpsert {κ β : Type} [DecidableEq κ] (m : List (κ × β)) (k : κ) (v : β) :
    List (κ × β) :=
  if (assocFind m k).isSome then
    m.map (fun kv => if kv.1 = k then (kv.1, v) else kv)
  else m ++ [(k, v)]

/-- The `versions` cache population loop: `for _, entry, version_tuple in
self._iter_versions(): self._versions[version_tuple] = entry`. -/
def buildVersions (l : List (Candidate × VTuple)) : List (VTuple × RootEntry) :=
  l.foldl (fun m ct => dictUpsert m ct.2 ct.1.entry) []

/-- The entry of the last candidate in the list resolving to the given
dedup tuple. -/
def lastEntryFor : List (Candidate × VTuple) → VTuple → Option RootEntry
  | [], _ => none
  | ct :: rest, k =>
    match lastEntryFor rest k with
    | some e => some e
    | none => if ct.2 = k then some ct.1.entry else none

theorem assocFind_append_some {κ β : Type} [DecidableEq κ]
    {l1 l2 : List (κ × β)} {k : κ} {v : β} (h : assocFind l1 k = some v) :
    assocFind (l1 ++ l2) k = some v := by
  induction l1 with
  | nil => simp [assocFind] at h
  | cons kv rest ih =>
    by_cases hk : kv.1 = k
    · simp_all [assocFind]
    · simp_all [assocFind]

theorem assocFind_append_none {κ β : Type} [DecidableEq κ]
    {l1 l2 : List (κ × β)} {k : κ} (h : assocFind l1 k = none) :
    assocFind (l1 ++ l2) k = assocFind l2 k := by
  induction l1 with
  | nil => simp [assocFind]
  | cons kv rest ih =>
    by_cases hk : kv.1 = k
    · simp_all [assocFind]
    · simp_all [assocFind]

theorem assocFind_map_update_self {κ β : Type} [DecidableEq κ]
    {m : List (κ × β)} {k : κ} {v : β} :
    assocFind (m.map (fun kv => if kv.1 = k then (kv.1, v) else kv)) k
      = (assocFind m k).map (fun _ => v) := by
  induction m with
  | nil => simp [assocFind]
  | cons kv rest ih =>
    by_cases hk : kv.1 = k
    · simp [assocFind, hk, ih]
    · simp [assocFind, hk, ih]

theorem assocFind_map_update_other {κ β : Type} [DecidableEq κ]
    {m : List (κ × β)} {k k' : κ} {v : β} (hne : k' ≠ k) :
    assocFind (m.map (fun kv => if kv.1 = k' then (kv.1, v) else kv)) k
      = assocFind m k := by
  have hne' : k ≠ k' := Ne.symm hne
  induction m with
  | nil => simp [assocFind]
  | cons kv rest ih =>
    by_cases hk' : kv.1 = k'
    · simp [assocFind, hk', hne, hne', ih]
    · by_cases hk : kv.1 = k
      · simp [assocFind, hk', hk, hne, hne', ih]
      · simp [assocFind, hk', hk, ih]

theorem assocFind_dictUpsert {κ β : Type} [DecidableEq κ]
    (m : List (κ × β)) (k k' : κ) (v : β) :
    assocFind (dictUpsert m k' v) k
      = if k' = k then some v else assocFind m k := by
  unfold dictUpsert
  by_cases hk : k' = k
  · subst hk
    cases hfind : assocFind m k' with
    | some w =>
      simp only [hfind, Option.isSome_some, if_true, if_pos]
      rw [assocFind_map_update_self, hfind]
      rfl
    | none =>
      simp only [hfind, Option.isSome_none, Bool.false_eq_true, if_false, if_pos]
      rw [assocFind_append_none hfind]
      simp [assocFind]
  · cases hfind : assocFind m k' with
    | some w =>
      simp only [hfind, Option.isSome_some, if_true, if_neg hk]
      exact assocFind_map_update_other hk
    | none =>
      simp only [hfind, Option.isSome_none, Bool.false_eq_true, if_false, if_neg hk]
      cases hfk : assocFind m k with
      | some w => exact assocFind_append_some hfk
      | none =>
        rw [assocFind_append_none hfk]
        simp [assocFind, hk]

theorem assocFind_ne_none_of_key_mem {κ β : Type} [DecidableEq κ]
    {m : List (κ × β)} {a : κ} (ha : a ∈ m.map Prod.fst) :
    assocFind m a ≠ none := by
  obtain ⟨kv, hkv, hfst⟩ := List.mem_map.mp ha
  subst hfst
  induction m with
  | nil => cases hkv
  | cons kv' rest ih =>
    cases hkv with
    | head => simp [assocFind]
    | tail _ hmem =>
      by_cases hk' : kv'.1 = kv.1
      · simp [assocFind, hk']
      · simp only [assocFind, if_neg hk']
        exact ih hmem (List.mem_map_of_mem _ hmem)

theorem dictUpsert_keys_nodup {κ β : Type} [DecidableEq κ]
    {m : List (κ × β)} (k : κ) (v : β) (h : (m.map Prod.fst).Nodup) :
    ((dictUpsert m k v).map Prod.fst).Nodup := by
  unfold dictUpsert
  cases hfind : assocFind m k with
  | some w =>
    simp only [hfind, Option.isSome_some, if_true]
    have : (m.map (fun kv => if kv.1 = k then (kv.1, v) else kv)).map Prod.fst
        = m.map Prod.fst := by
      rw [List.map_map]
      apply List.map_congr_left
      intro kv _
      by_cases hk : kv.1 = k <;> simp [hk]
    rw [this]
    exact h
  | none =>
    simp only [hfind, Option.isSome_none, Bool.false_eq_true, if_false]
    rw [List.map_append]
    simp only [List.map_cons, List.map_nil]
    rw [List.nodup_append]
    refine ⟨h, List.nodup_singleton k, ?_⟩
    intro a ha hb
    simp only [List.mem_singleton] at hb
    subst hb
    exact assocFind_ne_none_of_key_mem ha hfind

theorem buildVersions_foldl_find (l : List (Candidate × VTuple)) :
    ∀ (m : List (VTuple × RootEntry)) (k : VTuple),
      assocFind (l.foldl (fun m ct => dictUpsert m ct.2 ct.1.entry) m) k
        = match lastEntryFor l k with
          | some e => some e
          | none => assocFind m k := by
  induction l with
  | nil => intro m k; rfl
  | cons ct rest ih =>
    intro m k
    show assocFind (rest.foldl _ (dictUpsert m ct.2 ct.1.entry)) k = _
    rw [ih]
    cases hrest : lastEntryFor rest k with
    | some e => simp [lastEntryFor, hrest]
    | none =>
      simp only [lastEntryFor, hrest]
      rw [assocFind_dictUpsert]
      by_cases h2 : ct.2 = k <;> simp [h2]

theorem buildVersions_foldl_nodup (l : List (Candidate × VTuple)) :
    ∀ (m : List (VTuple × RootEntry)), (m.map Prod.fst).Nodup →
      (((l.foldl (fun m ct => dictUpsert m ct.2 ct.1.entry) m)).map Prod.fst).Nodup := by
  induction l with
  | nil => intro m h; exact h
  | cons ct rest ih =>
    intro m h
    exact ih _ (dictUpsert_keys_nodup ct.2 ct.1.entry h)

/-- C10: for the candidate list actually produced by `_iter_versions`, the
`versions` cache maps each dedup tuple to at most one entry (its keys are
duplicate-free), and the entry stored under a tuple is the entry of the
last candidate in enumeration order that resolved to that tuple. -/
theorem c10_versions_cache_last_wins (ignore_unsupported : Bool)
    (cs : List Candidate) (l : List (Candidate × VTuple))
    (h : iterVersions ignore_unsupported cs = .ok l) :
    ((buildVersions l).map Prod.fst).Nodup
    ∧ ∀ k, assocFind (buildVersions l) k = lastEntryFor l k := by
  refine ⟨buildVersions_foldl_nodup l [] (by simp), fun k => ?_⟩
  rw [buildVersions, buildVersions_foldl_find]
  cases hl : lastEntryFor l k <;> simp [assocFind]

/-- Two candidates whose directory names both parse to the same dedup
tuple (3.9.1). -/
def candA : Candidate :=
  { basePath := "/opt/pyenv/versions/3.9.1",
    entry := { name := "3.9.1", path := "/opt/pyenv/versions/3.9.1/bin", pythons := [] } }

/-- A second candidate with the same resolved dedup tuple as `candA`. -/
def candB : Candidate :=
  { basePath := "/opt/asdf/installs/python/3.9.1",
    entry := { name := "3.9.1", path := "/opt/asdf/installs/python/3.9.1/bin",
               pythons := [] } }

/-- Witness for C10 at concrete inputs: two candidates resolving to the
same tuple; the cache is keyed once and holds the later entry. -/
theorem c10_versions_cache_last_wins_witness :
    iterVersions true [candA, candB]
        = .ok [(candA, (3, some 9, some 1, false, false, false)),
               (candB, (3, some 9, some 1, false, false, false))]
    ∧ (((buildVersions [(candA, (3, some 9, some 1, false, false, false)),
               (candB, (3, some 9, some 1, false, false, false))]).map Prod.fst).Nodup
       ∧ ∀ k, assocFind (buildVersions [(candA, (3, some 9, some 1, false, false, false)),
               (candB, (3, some 9, some 1, false, false, false))]) k
           = lastEntryFor [(candA, (3, some 9, some 1, false, false, false)),
               (candB, (3, some 9, some 1, false, false, false))] k) :=
  ⟨rfl, c10_versions_cache_last_wins true [candA, candB] _ rfl⟩

/-! ## `VersionMap` and claims C4, C5 -/

/-- Update-in-place of every pair under the given key of an
insertion-ordered association list. -/
def assocUpdate {κ β : Type} [DecidableEq κ] (l : List (κ × β)) (k : κ)
    (f : β → β) : List (κ × β) :=
  l.map (fun kv => if kv.1 = k then (kv.1, f kv.2) else kv)

/-- The `VersionMap` attrs class.  Its `versions` field is declared
`attr.ib(factory=defaultdict)`, i.e. the default construction yields a
`defaultdict` with **no** default factory (`defaultdict()`), on which a
missing-key item access raises `KeyError`; `listFactory` records whether
the mapping was instead supplied with a `list` default factory, in which
case a missing-key access materializes an empty list under the key. -/
structure VersionMap where
  listFactory : Bool := false
  versions : List (VTuple × List Location) := []
deriving DecidableEq, Repr

/-- `VersionMap.add_entry`: a falsy (`None`) resolved version is a no-op;
otherwise `_ = self.versions[version.version_tuple]` touches the mapping
(raising `KeyError` on a fresh key without a factory), then the entry is
appended unless its path is already present under the key. -/
def VersionMap.add_entry (m : VersionMap) (entry : Location) :
    Except PyErr VersionMap :=
  match entry.as_python with
  | none => .ok m
  | some version =>
    let key := version.version_tuple
    let touched : Except PyErr (List (VTuple × List Location)) :=
      match assocFind m.versions key with
      | some _ => .ok m.versions
      | none =>
        if m.listFactory then .ok (m.versions ++ [(key, [])])
        else .error .keyError
    match touched with
    | .error e => .error e
    | .ok vs =>
      let paths := ((assocFind vs key).getD []).map (fun p => p.path)
      if entry.path ∈ paths then .ok { m with versions := vs }
      else .ok { m with versions := assocUpdate vs key (fun cur => cur ++ [entry]) }

/-- One iteration of the `VersionMap.merge` loop for a key/entry-list pair
of the target: adopt the whole list for a new key, else append exactly the
target entries whose path is not yet present under the key. -/
def mergeStep (vs : List (VTuple × List Location))
    (kv : VTuple × List Location) : List (VTuple × List Location) :=
  match assocFind vs kv.1 with
  | none => vs ++ [kv]
  | some cur =>
    let current_entries := cur.map (fun p => p.path)
    let new_entries :=
      (kv.2.map (fun p => p.path)).filter (fun p => decide (p ∉ current_entries))
    assocUpdate vs kv.1
      (fun cur' => cur' ++ kv.2.filter (fun e => decide (e.path ∈ new_entries)))

/-- `VersionMap.merge`: fold the merge step over the target's items in
insertion order. -/
def VersionMap.merge (m target : VersionMap) : VersionMap :=
  { m with versions := target.versions.foldl mergeStep m.versions }

theorem assocFind_assocUpdate_self {κ β : Type} [DecidableEq κ]
    {l : List (κ × β)} {k : κ} {f : β → β} :
    assocFind (assocUpdate l k f) k = (assocFind l k).map f := by
  induction l with
  | nil => simp [assocFind, assocUpdate]
  | cons kv rest ih =>
    by_cases hk : kv.1 = k
    · simp [assocFind, assocUpdate, hk]
    · simpa [assocFind, assocUpdate, hk] using ih

theorem assocFind_assocUpdate_other {κ β : Type} [DecidableEq κ]
    {l : List (κ × β)} {k k' : κ} {f : β → β} (hne : k' ≠ k) :
    assocFind (assocUpdate l k' f) k = assocFind l k := by
  have hne' : k ≠ k' := Ne.symm hne
  induction l with
  | nil => simp [assocFind, assocUpdate]
  | cons kv rest ih =>
    by_cases hk' : kv.1 = k'
    · simpa [assocFind, assocUpdate, hk', hne, hne'] using ih
    · by_cases hk : kv.1 = k
      · simp [assocFind, assocUpdate, hk', hk, hne, hne']
      · simpa [assocFind, assocUpdate, hk', hk] using ih

theorem assocUpdate_id {κ β : Type} [DecidableEq κ] (l : List (κ × β)) (k : κ) :
    assocUpdate l k (fun cur => cur) = l := by
  unfold assocUpdate
  have hfn : (fun (kv : κ × β) => if kv.1 = k then (kv.1, kv.2) else kv) = id := by
    funext kv
    by_cases hk : kv.1 = k
    · rw [if_pos hk]
      rfl
    · rw [if_neg hk]
      rfl
  rw [hfn, List.map_id]

theorem assocFind_eq_of_nodup_mem {κ β : Type} [DecidableEq κ]
    {l : List (κ × β)} {kv : κ × β} (hnd : (l.map Prod.fst).Nodup)
    (hm : kv ∈ l) : assocFind l kv.1 = some kv.2 := by
  induction l with
  | nil => cases hm
  | cons kv' rest ih =>
    cases hm with
    | head => simp [assocFind]
    | tail _ hmem =>
      have hk : kv'.1 ≠ kv.1 := by
        intro he
        have h1 : kv.1 ∈ rest.map Prod.fst := List.mem_map_of_mem _ hmem
        rw [List.map_cons, List.nodup_cons] at hnd
        exact hnd.1 (he ▸ h1)
      rw [List.map_cons, List.nodup_cons] at hnd
      simp only [assocFind, if_neg hk]
      exact ih hnd.2 hmem

/-- Stability and completeness of the merge fold: an existing entry list
under a key is preserved as a prefix, everything appended after it comes
from the target under the same key with a previously unseen path, and
every target entry with an unseen path does get appended. -/
theorem mergeFold_stable :
    ∀ (ts vs : List (VTuple × List Location)), (ts.map Prod.fst).Nodup →
      ∀ (k : VTuple) (l : List Location), assocFind vs k = some l →
      ∃ l', assocFind (ts.foldl mergeStep vs) k = some (l ++ l')
        ∧ (∀ e ∈ l', (∃ le, (k, le) ∈ ts ∧ e ∈ le)
            ∧ e.path ∉ l.map (fun p => p.path))
        ∧ (∀ le, (k, le) ∈ ts →
            ∀ e ∈ le, e.path ∉ l.map (fun p => p.path) → e ∈ l ++ l') := by
  intro ts
  induction ts with
  | nil =>
    intro vs _ k l h
    exact ⟨[], by simpa using h, by simp, by simp⟩
  | cons kv rest ih =>
    intro vs hnd k l h
    rw [List.map_cons, List.nodup_cons] at hnd
    by_cases hk : kv.1 = k
    · subst hk
      rw [List.foldl_cons]
      have hstep : mergeStep vs kv
          = assocUpdate vs kv.1 (fun cur' => cur' ++ kv.2.filter
              (fun e => decide (e.path ∈ (kv.2.map (fun p => p.path)).filter
                (fun p => decide (p ∉ l.map (fun p => p.path)))))) := by
        unfold mergeStep
        rw [h]
      set app := kv.2.filter
          (fun e => decide (e.path ∈ (kv.2.map (fun p => p.path)).filter
            (fun p => decide (p ∉ l.map (fun p => p.path))))) with happ
      have happ_mem : ∀ e, e ∈ app ↔ e ∈ kv.2 ∧ e.path ∉ l.map (fun p => p.path) := by
        intro e
        rw [happ, List.mem_filter]
        constructor
        · rintro ⟨he, hd⟩
          rw [decide_eq_true_iff, List.mem_filter, decide_eq_true_iff] at hd
          exact ⟨he, hd.2⟩
        · rintro ⟨he, hp⟩
          refine ⟨he, ?_⟩
          rw [decide_eq_true_iff, List.mem_filter, decide_eq_true_iff]
          exact ⟨List.mem_map_of_mem _ he, hp⟩
      have hfind' : assocFind (mergeStep vs kv) kv.1 = some (l ++ app) := by
        rw [hstep, assocFind_assocUpdate_self, h]
        rfl
      obtain ⟨l'', hfind'', hprops'', hcompl''⟩ :=
        ih (mergeStep vs kv) hnd.2 kv.1 (l ++ app) hfind'
      refine ⟨app ++ l'', by rw [hfind'', List.append_assoc], ?_, ?_⟩
      · intro e he
        rcases List.mem_append.mp he with he' | he'
        · obtain ⟨he2, hp⟩ := (happ_mem e).mp he'
          exact ⟨⟨kv.2, by simp, he2⟩, hp⟩
        · obtain ⟨⟨le, hle, hele⟩, hp⟩ := hprops'' e he'
          refine ⟨⟨le, List.mem_cons_of_mem _ hle, hele⟩, ?_⟩
          intro hmem
          exact hp (by rw [List.map_append]; exact List.mem_append_left _ hmem)
      · intro le hle e he hp
        rcases List.mem_cons.mp hle with heq | hmem
        · have hle2 : le = kv.2 := congrArg Prod.snd heq
          subst hle2
          have : e ∈ app := (happ_mem e).mpr ⟨he, hp⟩
          rw [← List.append_assoc]
          exact List.mem_append_left _ (List.mem_append_right _ this)
        · exact absurd (List.mem_map.mpr ⟨(kv.1, le), hmem, rfl⟩) hnd.1
    · rw [List.foldl_cons]
      have hfind' : assocFind (mergeStep vs kv) k = some l := by
        unfold mergeStep
        cases hf : assocFind vs kv.1 with
        | none => exact assocFind_append_some h
        | some cur => rw [assocFind_assocUpdate_other hk]; exact h
      obtain ⟨l', hfind'', hprops'', hcompl''⟩ :=
        ih (mergeStep vs kv) hnd.2 k l hfind'
      refine ⟨l', hfind'', ?_, ?_⟩
      · intro e he
        obtain ⟨⟨le, hle, hele⟩, hp⟩ := hprops'' e he
        exact ⟨⟨le, List.mem_cons_of_mem _ hle, hele⟩, hp⟩
      · intro le hle e he hp
        rcases List.mem_cons.mp hle with heq | hmem
        · exact absurd (congrArg Prod.fst heq).symm hk
        · exact hcompl'' le hmem e he hp

/-- A key absent from the local index adopts the target's entry list. -/
theorem mergeFold_new :
    ∀ (ts vs : List (VTuple × List Location)), (ts.map Prod.fst).Nodup →
      ∀ k, assocFind vs k = none →
      assocFind (ts.foldl mergeStep vs) k = assocFind ts k := by
  intro ts
  induction ts with
  | nil => intro vs _ k h; simpa [assocFind] using h
  | cons kv rest ih =>
    intro vs hnd k h
    rw [List.map_cons, List.nodup_cons] at hnd
    by_cases hk : kv.1 = k
    · subst hk
      rw [List.foldl_cons]
      have hstep : mergeStep vs kv = vs ++ [kv] := by
        unfold mergeStep
        rw [h]
      have hfind' : assocFind (mergeStep vs kv) kv.1 = some kv.2 := by
        rw [hstep, assocFind_append_none h]
        simp [assocFind]
      obtain ⟨l', hfind'', hprops'', -⟩ :=
        mergeFold_stable rest (mergeStep vs kv) hnd.2 kv.1 kv.2 hfind'
      have hnil : l' = [] := by
        rw [List.eq_nil_iff_forall_not_mem]
        intro e he
        obtain ⟨⟨le, hle, -⟩, -⟩ := hprops'' e he
        exact hnd.1 (List.mem_map.mpr ⟨(kv.1, le), hle, rfl⟩)
      rw [hfind'', hnil, List.append_nil]
      simp [assocFind]
    · rw [List.foldl_cons]
      have hfind' : assocFind (mergeStep vs kv) k = none := by
        unfold mergeStep
        cases hf : assocFind vs kv.1 with
        | none =>
          rw [assocFind_append_none h]
          simp [assocFind, hk]
        | some cur => rw [assocFind_assocUpdate_other hk]; exact h
      rw [ih (mergeStep vs kv) hnd.2 k hfind']
      simp [assocFind, hk]

/-- After a merge, every target entry's path is present under its key. -/
def CoversT (vs ts : List (VTuple × List Location)) : Prop :=
  ∀ kv ∈ ts, ∃ cur, assocFind vs kv.1 = some cur
    ∧ ∀ e ∈ kv.2, e.path ∈ cur.map (fun p => p.path)

/-- When the local index already covers the target, the merge fold is the
identity. -/
theorem mergeFold_id_of_covers :
    ∀ (ts vs : List (VTuple × List Location)), CoversT vs ts →
      ts.foldl mergeStep vs = vs := by
  intro ts
  induction ts with
  | nil => intro vs _; rfl
  | cons kv rest ih =>
    intro vs hcov
    obtain ⟨cur, hfind, hpaths⟩ := hcov kv (List.mem_cons_self _ _)
    have hnew : (kv.2.map (fun p => p.path)).filter
        (fun p => decide (p ∉ cur.map (fun p => p.path))) = [] := by
      rw [List.filter_eq_nil_iff]
      intro p hp
      obtain ⟨e, he, rfl⟩ := List.mem_map.mp hp
      simp only [decide_eq_true_iff, not_not]
      exact hpaths e he
    have hfun : (fun (cur' : List Location) => cur' ++ kv.2.filter
          (fun e => decide (e.path ∈ (kv.2.map (fun p => p.path)).filter
            (fun p => decide (p ∉ cur.map (fun p => p.path))))))
        = fun cur' => cur' := by
      funext cur'
      rw [hnew]
      simp
    have hstep : mergeStep vs kv
        = assocUpdate vs kv.1 (fun cur' => cur' ++ kv.2.filter
            (fun e => decide (e.path ∈ (kv.2.map (fun p => p.path)).filter
              (fun p => decide (p ∉ cur.map (fun p => p.path)))))) := by
      unfold mergeStep
      rw [hfind]
    rw [List.foldl_cons, hstep, hfun, assocUpdate_id]
    exact ih vs (fun kv' h' => hcov kv' (List.mem_cons_of_mem _ h'))

/-- The merge fold establishes coverage of the target. -/
theorem mergeFold_covers (ts vs : List (VTuple × List Location))
    (hnd : (ts.map Prod.fst).Nodup) : CoversT (ts.foldl mergeStep vs) ts := by
  intro kv hkv
  cases hf : assocFind vs kv.1 with
  | some l =>
    obtain ⟨l', hfind, -, hcompl⟩ := mergeFold_stable ts vs hnd kv.1 l hf
    refine ⟨l ++ l', hfind, ?_⟩
    intro e he
    by_cases hp : e.path ∈ l.map (fun p => p.path)
    · rw [List.map_append]
      exact List.mem_append_left _ hp
    · have := hcompl kv.2 (by simpa using hkv) e he hp
      exact List.mem_map_of_mem _ this
  | none =>
    rw [mergeFold_new ts vs hnd kv.1 hf]
    refine ⟨kv.2, assocFind_eq_of_nodup_mem hnd hkv, ?_⟩
    intro e he
    exact List.mem_map_of_mem _ he

/-- C4: `VersionMap.merge` is order-stable — every entry list already
present locally survives as a prefix under its key, exactly the target
entries whose path was not yet present under the key are appended after
it, keys absent locally adopt the target's list — and merging the same
target a second time changes nothing. -/
theorem c4_merge_stable_idempotent (m t : VersionMap)
    (ht : (t.versions.map Prod.fst).Nodup) :
    (∀ k l, assocFind m.versions k = some l →
      ∃ l', assocFind (m.merge t).versions k = some (l ++ l')
        ∧ (∀ e ∈ l', (∃ le, assocFind t.versions k = some le ∧ e ∈ le)
            ∧ e.path ∉ l.map (fun p => p.path))
        ∧ (∀ le, assocFind t.versions k = some le →
            ∀ e ∈ le, e.path ∉ l.map (fun p => p.path) → e ∈ l ++ l'))
    ∧ (∀ k, assocFind m.versions k = none →
        assocFind (m.merge t).versions k = assocFind t.versions k)
    ∧ (m.merge t).merge t = m.merge t := by
  refine ⟨?_, ?_, ?_⟩
  · intro k l h
    obtain ⟨l', hfind, hprops, hcompl⟩ :=
      mergeFold_stable t.versions m.versions ht k l h
    refine ⟨l', hfind, ?_, ?_⟩
    · intro e he
      obtain ⟨⟨le, hle, hele⟩, hp⟩ := hprops e he
      exact ⟨⟨le, assocFind_eq_of_nodup_mem ht hle, hele⟩, hp⟩
    · intro le hle e he hp
      exact hcompl le (assocFind_mem hle) e he hp
  · intro k h
    exact mergeFold_new t.versions m.versions ht k h
  · have hcov : CoversT (t.versions.foldl mergeStep m.versions) t.versions :=
      mergeFold_covers t.versions m.versions ht
    have hid : t.versions.foldl mergeStep (m.merge t).versions
        = (m.merge t).versions :=
      mergeFold_id_of_covers t.versions _ hcov
    show { m.merge t with versions := t.versions.foldl mergeStep (m.merge t).versions }
        = m.merge t
    rw [hid]

/-- A resolved 3.9.1 location at a concrete path. -/
def locNine : Location :=
  { path := "/usr/bin/python3.9",
    as_python := some { major := 3, minor := some 9, patch := some 1 } }

/-- A second resolved 3.9.1 location at a different path. -/
def locNineAlt : Location :=
  { path := "/usr/local/bin/python3.9",
    as_python := some { major := 3, minor := some 9, patch := some 1 } }

/-- The dedup key of 3.9.1 used by the concrete witnesses. -/
def kW : VTuple := (3, some 9, some 1, false, false, false)

/-- A concrete one-key map holding `locNine`. -/
def mW : VersionMap := { listFactory := true, versions := [(kW, [locNine])] }

/-- A concrete target map holding `locNine` plus a new path under the same
key. -/
def tW : VersionMap :=
  { listFactory := true, versions := [(kW, [locNine, locNineAlt])] }

/-- Witness for C4 at concrete inputs: merging `mW` with `tW` keeps
`locNine` as a prefix, appends only new-path target entries, and is
idempotent. -/
theorem c4_merge_stable_idempotent_witness :
    (∃ l', assocFind (mW.merge tW).versions kW = some ([locNine] ++ l')
      ∧ (∀ e ∈ l', (∃ le, assocFind tW.versions kW = some le ∧ e ∈ le)
          ∧ e.path ∉ [locNine].map (fun p => p.path))
      ∧ (∀ le, assocFind tW.versions kW = some le →
          ∀ e ∈ le, e.path ∉ [locNine].map (fun p => p.path) → e ∈ [locNine] ++ l'))
    ∧ (mW.merge tW).merge tW = mW.merge tW :=
  ⟨(c4_merge_stable_idempotent mW tW (by decide)).1 kW [locNine] (by decide),
   (c4_merge_stable_idempotent mW tW (by decide)).2.2⟩

/-- C5 (code bug): on the default construction (`attr.ib(factory=defaultdict)`
gives a `defaultdict` with no default factory), `add_entry` of a resolved
entry under a fresh dedup key raises `KeyError` at the
`_ = self.versions[version.version_tuple]` touch instead of appending; with
a `list` default factory the same call appends as the claim describes. -/
theorem c5_add_entry_keyerror :
    VersionMap.add_entry { listFactory := false, versions := [] } locNine
        = .error .keyError
    ∧ VersionMap.add_entry { listFactory := true, versions := [] } locNine
        = .ok { listFactory := true, versions := [(kW, [locNine])] } := by
  constructor
  · rfl
  · rfl

/-! ## Root ordering (`get_version_order`) and claim C9 -/

/-- A glob result: a candidate subdirectory with its own name and its
parent directory's name. -/
structure GPath where
  name : String
  parentName : String
deriving DecidableEq, Repr

/-- Python `list.remove` without the missing-element error (the source
guards with `if version in version_paths`): drop the first occurrence. -/
def eraseFirst : List GPath → GPath → List GPath
  | [], _ => []
  | x :: xs, a => if x = a then xs else x :: eraseFirst xs a

/-- The dict comprehension `{v.name: v for v in version_paths}` followed by
a lookup: the last path bearing the given name wins. -/
def lastWithName : List GPath → String → Option GPath
  | [], _ => none
  | x :: xs, n =>
    match lastWithName xs n with
    | some y => some y
    | none => if x.name = n then some x else none

/-- The glob results surviving the `envs` exclusion
(`not (p.parent.name == "envs" or p.name == "envs")`). -/
def envsFiltered (globPaths : List GPath) : List GPath :=
  globPaths.filter (fun p => decide (¬ (p.parentName = "envs" ∨ p.name = "envs")))

/-- The manager-ordered front segment: the version-manager's declared
preference order resolved against the name dictionary (pyenv checked
first, then asdf; names not present are skipped). -/
def managerOrder (vp : List GPath) (isPyenvRoot isAsdfRoot : Bool)
    (pyenvOrder asdfOrder : List String) : List GPath :=
  if isPyenvRoot then pyenvOrder.filterMap (lastWithName vp)
  else if isAsdfRoot then asdfOrder.filterMap (lastWithName vp)
  else []

/-- `PythonFinder.get_version_order`, over the external inputs it
consults: the glob results, the `is_pyenv` / `is_asdf` root detection and
the two managers' declared preference orders
(`parse_pyenv_version_order` / `parse_asdf_version_order`, external
collaborators). -/
def get_version_order (globPaths : List GPath) (isPyenvRoot isAsdfRoot : Bool)
    (pyenvOrder asdfOrder : List String) : List GPath :=
  let version_paths := envsFiltered globPaths
  let version_order := managerOrder version_paths isPyenvRoot isAsdfRoot
    pyenvOrder asdfOrder
  let remaining := version_order.foldl eraseFirst version_paths
  if version_order.isEmpty then remaining else version_order ++ remaining

theorem lastWithName_mem {l : List GPath} {n : String} {p : GPath}
    (h : lastWithName l n = some p) : p ∈ l := by
  induction l with
  | nil => cases h
  | cons x xs ih =>
    simp only [lastWithName] at h
    cases hx : lastWithName xs n with
    | some y =>
      rw [hx] at h
      cases h
      exact List.mem_cons_of_mem _ (ih hx)
    | none =>
      rw [hx] at h
      by_cases hn : x.name = n
      · rw [if_pos hn] at h
        cases h
        exact List.mem_cons_self _ _
      · rw [if_neg hn] at h
        cases h

theorem eraseFirst_sublist (l : List GPath) (a : GPath) :
    (eraseFirst l a).Sublist l := by
  induction l with
  | nil => exact List.Sublist.refl _
  | cons x xs ih =>
    by_cases hx : x = a
    · simp only [eraseFirst, if_pos hx]
      exact List.sublist_cons_self _ _
    · simp only [eraseFirst, if_neg hx]
      exact List.Sublist.cons₂ _ ih

theorem foldl_eraseFirst_sublist (os : List GPath) :
    ∀ l : List GPath, (os.foldl eraseFirst l).Sublist l := by
  induction os with
  | nil => intro l; exact List.Sublist.refl _
  | cons o os' ih =>
    intro l
    exact (ih (eraseFirst l o)).trans (eraseFirst_sublist l o)

theorem mem_eraseFirst_of_ne {l : List GPath} {a b : GPath} (ha : a ∈ l)
    (hne : a ≠ b) : a ∈ eraseFirst l b := by
  induction l with
  | nil => cases ha
  | cons x xs ih =>
    by_cases hx : x = b
    · simp only [eraseFirst, if_pos hx]
      rcases List.mem_cons.mp ha with rfl | hmem
      · exact absurd hx hne
      · exact hmem
    · simp only [eraseFirst, if_neg hx]
      rcases List.mem_cons.mp ha with rfl | hmem
      · exact List.mem_cons_self _ _
      · exact List.mem_cons_of_mem _ (ih hmem)

theorem perm_cons_eraseFirst {l : List GPath} {a : GPath} (ha : a ∈ l) :
    l.Perm (a :: eraseFirst l a) := by
  induction l with
  | nil => cases ha
  | cons x xs ih =>
    by_cases hx : x = a
    · subst hx
      simp only [eraseFirst, if_pos rfl]
      exact List.Perm.refl _
    · simp only [eraseFirst, if_neg hx]
      rcases List.mem_cons.mp ha with rfl | hmem
      · exact absurd rfl hx
      · exact ((ih hmem).cons x).trans (List.Perm.swap _ _ _)

theorem perm_order_append_foldl {os : List GPath} :
    ∀ l : List GPath, os.Nodup → (∀ x ∈ os, x ∈ l) →
      l.Perm (os ++ os.foldl eraseFirst l) := by
  induction os with
  | nil => intro l _ _; exact List.Perm.refl _
  | cons o os' ih =>
    intro l hnd hmem
    rw [List.nodup_cons] at hnd
    have ho : o ∈ l := hmem o (List.mem_cons_self _ _)
    have hmem' : ∀ x ∈ os', x ∈ eraseFirst l o := by
      intro x hx
      exact mem_eraseFirst_of_ne (hmem x (List.mem_cons_of_mem _ hx))
        (fun he => hnd.1 (he ▸ hx))
    have := (perm_cons_eraseFirst ho).trans
      ((ih (eraseFirst l o) hnd.2 hmem').cons o)
    simpa using this

/-- C9: `get_version_order` returns exactly the glob results surviving the
`envs` exclusion (as a permutation), with the manager-ordered paths in
front — in the manager's declared order — followed by the remaining
filtered paths in glob order (an order-preserving sublist), assuming the
resolved manager front segment has no duplicates. -/
theorem c9_get_version_order (globPaths : List GPath)
    (isPyenvRoot isAsdfRoot : Bool) (pyenvOrder asdfOrder : List String)
    (hnd : (managerOrder (envsFiltered globPaths) isPyenvRoot isAsdfRoot
        pyenvOrder asdfOrder).Nodup) :
    (get_version_order globPaths isPyenvRoot isAsdfRoot pyenvOrder
        asdfOrder).Perm (envsFiltered globPaths)
    ∧ ∃ rest,
        get_version_order globPaths isPyenvRoot isAsdfRoot pyenvOrder asdfOrder
          = managerOrder (envsFiltered globPaths) isPyenvRoot isAsdfRoot
              pyenvOrder asdfOrder ++ rest
        ∧ rest.Sublist (envsFiltered globPaths) := by
  have hmem : ∀ x ∈ managerOrder (envsFiltered globPaths) isPyenvRoot isAsdfRoot
      pyenvOrder asdfOrder, x ∈ envsFiltered globPaths := by
    intro x hx
    unfold managerOrder at hx
    split at hx
    · obtain ⟨n, -, hn⟩ := List.mem_filterMap.mp hx
      exact lastWithName_mem hn
    · split at hx
      · obtain ⟨n, -, hn⟩ := List.mem_filterMap.mp hx
        exact lastWithName_mem hn
      · cases hx
  set vp := envsFiltered globPaths with hvp
  set vo := managerOrder vp isPyenvRoot isAsdfRoot pyenvOrder asdfOrder with hvodef
  have hgvo : get_version_order globPaths isPyenvRoot isAsdfRoot pyenvOrder
      asdfOrder = if vo.isEmpty then vo.foldl eraseFirst vp
        else vo ++ vo.foldl eraseFirst vp := rfl
  by_cases hv : vo = []
  · rw [hgvo, hv]
    simp only [List.isEmpty_nil, if_true, List.foldl_nil]
    exact ⟨List.Perm.refl _, ⟨vp, rfl, List.Sublist.refl _⟩⟩
  · have hie : ¬ vo.isEmpty = true := fun h => hv (List.isEmpty_iff.mp h)
    rw [hgvo, if_neg hie]
    exact ⟨(perm_order_append_foldl vp hnd hmem).symm,
      ⟨_, rfl, foldl_eraseFirst_sublist _ _⟩⟩

/-- A concrete glob scenario: three version directories, one `envs`
directory, under a pyenv root that declares `3.10.0` first. -/
def gpNine : GPath := { name := "3.9.1", parentName := "versions" }

/-- The 3.10.0 subdirectory of the concrete scenario. -/
def gpTen : GPath := { name := "3.10.0", parentName := "versions" }

/-- The anaconda subdirectory of the concrete scenario. -/
def gpConda : GPath := { name := "anaconda3-5.3.0", parentName := "versions" }

/-- The excluded `envs` subdirectory of the concrete scenario. -/
def gpEnvs : GPath := { name := "envs", parentName := "versions" }

/-- Witness for C9 at concrete inputs: a pyenv root declaring `3.10.0`
first; the result is a permutation of the filtered paths with `3.10.0` in
front. -/
theorem c9_get_version_order_witness :
    (get_version_order [gpNine, gpTen, gpEnvs, gpConda] true false
        ["3.10.0"] []).Perm (envsFiltered [gpNine, gpTen, gpEnvs, gpConda])
    ∧ ∃ rest,
        get_version_order [gpNine, gpTen, gpEnvs, gpConda] true false
            ["3.10.0"] []
          = managerOrder (envsFiltered [gpNine, gpTen, gpEnvs, gpConda]) true
              false ["3.10.0"] [] ++ rest
        ∧ rest.Sublist (envsFiltered [gpNine, gpTen, gpEnvs, gpConda]) :=
  c9_get_version_order [gpNine, gpTen, gpEnvs, gpConda] true false
    ["3.10.0"] [] (by decide)

/-! ## Lazy minor/patch resolution (`__getattribute__`) and claim C6 -/

/-- The external world consulted by the probe: `get_python_version`
invokes the binary at a path; `none` models an invocation that fails
(raises) or yields no output. -/
structure ProbeWorld where
  getPythonVersion : String → Option String

/-- Mutable state threaded through probing: the `lru_cache` on
`parse_executable` (successes only — `lru_cache` never caches exceptions)
and the log of paths actually invoked (each entry is one subprocess
run). -/
structure PyState where
  parseExecCache : List (String × VDict)
  probeLog : List String
deriving DecidableEq, Repr

/-- The fresh state: empty cache, no probes yet. -/
def emptyState : PyState := { parseExecCache := [], probeLog := [] }

/-- Python `str.strip()`. -/
def pyStrip (s : String) : String :=
  String.mk
    (((s.toList.dropWhile Char.isWhitespace).reverse.dropWhile
      Char.isWhitespace).reverse)

/-- `PythonVersion.parse_executable` with its `lru_cache`: on a cache miss
the binary is invoked; a failed invocation raises `ValueError`, and
unparsable output propagates the parse failure; only successes are
cached.  (The `TypeError` branch guards a `None` path, which cannot arise
for a `String`.) -/
def parse_executable (w : ProbeWorld) (st : PyState) (path : String) :
    Except PyErr VDict × PyState :=
  match assocFind st.parseExecCache path with
  | some d => (.ok d, st)
  | none =>
    let st1 : PyState := { st with probeLog := st.probeLog ++ [path] }
    match w.getPythonVersion path with
    | none => (.error .valueError, st1)
    | some s =>
      match PythonVersion.parse (pyStrip s) with
      | .error e => (.error e, st1)
      | .ok d =>
        (.ok d, { st1 with parseExecCache := (path, d) :: st1.parseExecCache })

/-- The two lazily resolved attributes intercepted by
`__getattribute__`. -/
inductive MPKey where
  | minor
  | patch
deriving DecidableEq, Repr

/-- The `for k in instance_dict.keys(): ... setattr(self, k, ...)` loop:
every parsed field that is an attribute of the instance is written back
onto it. -/
def applyDict (v : PythonVersion) (d : VDict) : PythonVersion :=
  { v with
    major := d.major
    minor := d.minor
    patch := d.patch
    is_prerelease := d.is_prerelease
    is_postrelease := d.is_postrelease
    is_devrelease := d.is_devrelease
    is_debug := d.is_debug
    company := d.company }

/-- The `executable` local computed by `__getattribute__` before probing:
a truthy `executable` field wins (`if self.executable:`), else the
`comes_from` entry's path (`elif self.comes_from:`), else nothing. -/
def probeTarget (v : PythonVersion) : Option String :=
  match v.executable with
  | some e => if e ≠ "" then some e else v.comes_from
  | none => v.comes_from

/-- `PythonVersion.__getattribute__` restricted to the `minor`/`patch`
interception: a stored value is returned as-is; an unset value triggers
the probe when a truthy `executable` or a `comes_from` is known (the probe
result is written back via `setattr` and the requested key read from the
parsed dictionary), and a probe failure propagates out of the attribute
read. -/
def readLazy (w : ProbeWorld) (st : PyState) (v : PythonVersion)
    (key : MPKey) : Except PyErr (Option Nat) × PythonVersion × PyState :=
  let stored := match key with | .minor => v.minor | .patch => v.patch
  match stored with
  | some n => (.ok (some n), v, st)
  | none =>
    let executable : Option String := probeTarget v
    match executable with
    | none => (.ok none, v, st)
    | some e =>
      match parse_executable w st e with
      | (.error err, st1) => (.error err, v, st1)
      | (.ok d, st1) =>
        ((.ok (match key with | .minor => d.minor | .patch => d.patch)),
          applyDict v d, st1)

/-- The `setattr` write-back does not touch `executable` or `comes_from`,
so the probe target of an updated instance is unchanged. -/
theorem probeTarget_applyDict (v : PythonVersion) (d : VDict) :
    probeTarget (applyDict v d) = probeTarget v := rfl

/-- A world in which every probe fails. -/
def badWorld : ProbeWorld := { getPythonVersion := fun _ => none }

/-- An instance with unset minor and a known (broken) executable. -/
def vLazyBad : PythonVersion :=
  { major := 3, executable := some "/opt/broken/bin/python" }

/-- C6 counterexample: on an instance with unset `minor` and a known
executable whose probe fails, the first read of `minor` raises
`ValueError` (instead of returning the unset value), and a second read
raises again after running the probe a second time (the failure is not
cached), so the probe does not run at most once per instance and failed
outcomes are not cached. -/
theorem c6_lazy_probe_counterexample :
    (readLazy badWorld emptyState vLazyBad .minor).1 = .error .valueError
    ∧ (readLazy badWorld (readLazy badWorld emptyState vLazyBad .minor).2.2
        (readLazy badWorld emptyState vLazyBad .minor).2.1 .minor).1
      = .error .valueError
    ∧ (readLazy badWorld (readLazy badWorld emptyState vLazyBad .minor).2.2
        (readLazy badWorld emptyState vLazyBad .minor).2.1 .minor).2.2.probeLog
      = ["/opt/broken/bin/python", "/opt/broken/bin/python"] :=
  ⟨rfl, rfl, rfl⟩

/-- C6 (amended): for an instance with unset `minor` whose probe target is
known — a truthy `executable` path, or else a `comes_from` source
location — the first read triggers the probe.  When the probe succeeds,
the parsed result is applied to the instance and cached per path, and a
second read returns the same value without running the probe again — even
when the probed result left `minor` unset.  When the probe fails, the
read raises `ValueError`, the failure is not cached, and a later read
runs the probe again. -/
theorem c6_lazy_probe_amended :
    (∀ (w : ProbeWorld) (v : PythonVersion) (e s : String) (d : VDict),
      v.minor = none → probeTarget v = some e →
      w.getPythonVersion e = some s →
      PythonVersion.parse (pyStrip s) = .ok d →
      (readLazy w emptyState v .minor).1 = .ok d.minor
      ∧ (readLazy w emptyState v .minor).2.2.probeLog = [e]
      ∧ (readLazy w (readLazy w emptyState v .minor).2.2
          (readLazy w emptyState v .minor).2.1 .minor).1 = .ok d.minor
      ∧ (readLazy w (readLazy w emptyState v .minor).2.2
          (readLazy w emptyState v .minor).2.1 .minor).2.2.probeLog = [e])
    ∧ (∀ (w : ProbeWorld) (v : PythonVersion) (e : String),
      v.minor = none → probeTarget v = some e →
      w.getPythonVersion e = none →
      (readLazy w emptyState v .minor).1 = .error .valueError
      ∧ (readLazy w (readLazy w emptyState v .minor).2.2
          (readLazy w emptyState v .minor).2.1 .minor).1 = .error .valueError
      ∧ (readLazy w (readLazy w emptyState v .minor).2.2
          (readLazy w emptyState v .minor).2.1 .minor).2.2.probeLog = [e, e]) := by
  constructor
  · intro w v e s d hm hpt hw hp
    have hpe : parse_executable w emptyState e
        = (.ok d, { parseExecCache := [(e, d)], probeLog := [e] }) := by
      unfold parse_executable
      simp [emptyState, assocFind, hw, hp]
    have h1 : readLazy w emptyState v .minor
        = (.ok d.minor, applyDict v d,
            { parseExecCache := [(e, d)], probeLog := [e] }) := by
      unfold readLazy
      simp [hm, hpt, hpe]
    rw [h1]
    have hpt2 : probeTarget (applyDict v d) = some e := by
      rw [probeTarget_applyDict]
      exact hpt
    refine ⟨rfl, rfl, ?_, ?_⟩
    · cases hd : d.minor with
      | some m =>
        have hmin2 : (applyDict v d).minor = some m := hd
        unfold readLazy
        simp [hmin2, hd]
      | none =>
        have hmin2 : (applyDict v d).minor = none := hd
        have hpe2 : parse_executable w
            { parseExecCache := [(e, d)], probeLog := [e] } e
            = (.ok d, { parseExecCache := [(e, d)], probeLog := [e] }) := by
          unfold parse_executable
          simp [assocFind]
        unfold readLazy
        simp [hmin2, hpt2, hpe2, hd]
    · cases hd : d.minor with
      | some m =>
        have hmin2 : (applyDict v d).minor = some m := hd
        unfold readLazy
        simp [hmin2]
      | none =>
        have hmin2 : (applyDict v d).minor = none := hd
        have hpe2 : parse_executable w
            { parseExecCache := [(e, d)], probeLog := [e] } e
            = (.ok d, { parseExecCache := [(e, d)], probeLog := [e] }) := by
          unfold parse_executable
          simp [assocFind]
        unfold readLazy
        simp [hmin2, hpt2, hpe2]
  · intro w v e hm hpt hw
    have hpe : ∀ st : PyState, assocFind st.parseExecCache e = none →
        parse_executable w st e
          = (.error .valueError, { st with probeLog := st.probeLog ++ [e] }) := by
      intro st hst
      unfold parse_executable
      simp [hst, hw]
    have h1 : readLazy w emptyState v .minor
        = (.error .valueError, v,
            { parseExecCache := [], probeLog := [e] }) := by
      unfold readLazy
      simp [hm, hpt, emptyState,
        hpe { parseExecCache := [], probeLog := [] } rfl]
    rw [h1]
    have h2 : readLazy w { parseExecCache := [], probeLog := [e] } v .minor
        = (.error .valueError, v,
            { parseExecCache := [], probeLog := [e, e] }) := by
      unfold readLazy
      simp [hm, hpt, hpe { parseExecCache := [], probeLog := [e] } rfl]
    rw [h2]
    exact ⟨rfl, rfl, rfl⟩

/-- A world probing one good executable reporting "3.9.1". -/
def goodWorld : ProbeWorld :=
  { getPythonVersion := fun p =>
      if p = "/opt/good/bin/python" then some "3.9.1" else none }

/-- An instance with unset minor and the good executable path. -/
def vLazyGood : PythonVersion :=
  { major := 0, executable := some "/opt/good/bin/python" }

/-- An instance with unset minor, no `executable`, and only a `comes_from`
source location pointing at the good executable. -/
def vLazySrc : PythonVersion :=
  { major := 0, comes_from := some "/opt/good/bin/python" }

/-- Witness for C6 (amended) at concrete inputs, exercising both probe
triggers: a successful probe via the `executable` field, a successful
probe via the `comes_from` source location (no executable set), and a
failing probe that raises on both of two consecutive reads, re-running
each time. -/
theorem c6_lazy_probe_amended_witness :
    ((readLazy goodWorld emptyState vLazyGood .minor).1
        = .ok (mkVDict 3 (some 9) (some 1) false false false).minor
      ∧ (readLazy goodWorld emptyState vLazyGood .minor).2.2.probeLog
        = ["/opt/good/bin/python"]
      ∧ (readLazy goodWorld (readLazy goodWorld emptyState vLazyGood .minor).2.2
          (readLazy goodWorld emptyState vLazyGood .minor).2.1 .minor).1
        = .ok (mkVDict 3 (some 9) (some 1) false false false).minor
      ∧ (readLazy goodWorld (readLazy goodWorld emptyState vLazyGood .minor).2.2
          (readLazy goodWorld emptyState vLazyGood .minor).2.1 .minor).2.2.probeLog
        = ["/opt/good/bin/python"])
    ∧ ((readLazy goodWorld emptyState vLazySrc .minor).1
        = .ok (mkVDict 3 (some 9) (some 1) false false false).minor
      ∧ (readLazy goodWorld emptyState vLazySrc .minor).2.2.probeLog
        = ["/opt/good/bin/python"]
      ∧ (readLazy goodWorld (readLazy goodWorld emptyState vLazySrc .minor).2.2
          (readLazy goodWorld emptyState vLazySrc .minor).2.1 .minor).1
        = .ok (mkVDict 3 (some 9) (some 1) false false false).minor
      ∧ (readLazy goodWorld (readLazy goodWorld emptyState vLazySrc .minor).2.2
          (readLazy goodWorld emptyState vLazySrc .minor).2.1 .minor).2.2.probeLog
        = ["/opt/good/bin/python"])
    ∧ ((readLazy badWorld emptyState vLazyBad .minor).1 = .error .valueError
      ∧ (readLazy badWorld (readLazy badWorld emptyState vLazyBad .minor).2.2
          (readLazy badWorld emptyState vLazyBad .minor).2.1 .minor).1
        = .error .valueError
      ∧ (readLazy badWorld (readLazy badWorld emptyState vLazyBad .minor).2.2
          (readLazy badWorld emptyState vLazyBad .minor).2.1 .minor).2.2.probeLog
        = ["/opt/broken/bin/python", "/opt/broken/bin/python"]) :=
  ⟨c6_lazy_probe_amended.1 goodWorld vLazyGood "/opt/good/bin/python" "3.9.1"
      (mkVDict 3 (some 9) (some 1) false false false) rfl rfl rfl rfl,
   c6_lazy_probe_amended.1 goodWorld vLazySrc "/opt/good/bin/python" "3.9.1"
      (mkVDict 3 (some 9) (some 1) false false false) rfl rfl rfl rfl,
   c6_lazy_probe_amended.2 badWorld vLazyBad "/opt/broken/bin/python"
      rfl rfl rfl⟩

/-! ## `find_all_python_versions` and claim C3 -/

/-- The sort key `operator.attrgetter("as_python.version_sort")` of a
location.  `expand_paths` guarantees every sorted element carries a
resolved version; the default is never reached on the lists actually
sorted. -/
def locKey (loc : Location) : VSKey :=
  (loc.as_python.getD {}).version_sort

/-- Modelled from the spec: the per-entry matching used by the
filesystem-entry collaborator's `find_all_python_versions` /
`find_python_version` (mixins, not under src/) — "apply matches(predicate)";
per the spec "matches and ranking never raise", an erroring `matches` is a
non-match, and the debug flag is not part of the engine's predicate. -/
def matchesD (v : PythonVersion) (env : ArchEnv) (major minor patch : Option Nat)
    (pre dev : Option Bool) (arch : Option String)
    (python_name : Option String) : Bool :=
  match v.matches env major minor patch pre dev arch none python_name with
  | .ok b => b
  | .error _ => false

/-- Modelled from the spec: `entry.find_all_python_versions(...)` on a
root entry — enumerate the runnable executables under it and keep those
whose resolved version matches the predicate (unresolved entries are
dropped). -/
def entryFindAll (b : RootEntry) (env : ArchEnv) (major minor patch : Option Nat)
    (pre dev : Option Bool) (arch : Option String)
    (name : Option String) : List Location :=
  b.pythons.filter (fun loc =>
    match loc.as_python with
    | some v => matchesD v env major minor patch pre dev arch name
    | none => false)

/-- The engine state consumed by `find_all_python_versions`: the ordered
root entries produced by `_iter_version_bases` (the `paths` default holds
the same entries) and the `is_dir` flag selecting the per-root
sub-query. -/
structure Finder where
  bases : List RootEntry
  is_dir : Bool
deriving DecidableEq, Repr

/-- Python truthiness of an optional integer: `None` and `0` are falsy. -/
def truthyNat : Option Nat → Bool
  | none => false
  | some n => decide (n ≠ 0)

/-- Modelled from the spec: `expand_paths` on a list of optional
locations — flatten, dropping `None` and unresolved results. -/
def expand_paths_opt (l : List (Option Location)) : List Location :=
  (l.filterMap id).filter (fun loc => loc.as_python.isSome)

/-- Modelled from the spec: `expand_paths` on a list of per-root result
lists — flatten, dropping unresolved results. -/
def expand_paths_lists (l : List (List Location)) : List Location :=
  l.flatten.filter (fun loc => loc.as_python.isSome)

/-- One insertion step of Python's stable descending sort
(`sorted(..., key=..., reverse=True)`): walk past entries whose key is
strictly greater, insert before the first that is not; key comparisons may
raise `TypeError`. -/
def insertDescE (x : Location) : List Location → Except Unit (List Location)
  | [] => .ok [x]
  | y :: ys =>
    match vsCompare (locKey y) (locKey x) with
    | .error e => .error e
    | .ok o =>
      if o = .gt then (insertDescE x ys).map (fun r => y :: r)
      else .ok (x :: y :: ys)

/-- Python's stable descending sort by `version_sort` key. -/
def sortDescE : List Location → Except Unit (List Location)
  | [] => .ok []
  | x :: xs => (sortDescE xs).bind (insertDescE x)

/-- `PythonFinder.find_all_python_versions`: when no major/minor/patch/name
argument is truthy (`any([major, minor, patch, name])` — note `0` and `""`
count as absent), take the first executable of each root's full
enumeration in root order; otherwise run the per-root sub-query (the
root entry's `find_all_python_versions` when `is_dir`, else its
`find_python_version`).  Either way the results are flattened, unresolved
entries dropped, and the rest sorted descending by
`as_python.version_sort`. -/
def find_all_python_versions (f : Finder) (env : ArchEnv)
    (major minor patch : Option Nat) (pre dev : Option Bool)
    (arch name : Option String) : Except Unit (List Location) :=
  let pythons : List Location :=
    if !(truthyNat major || truthyNat minor || truthyNat patch || strTruthy name) then
      expand_paths_opt (f.bases.map (fun b =>
        (entryFindAll b env none none none none none none none).head?))
    else if f.is_dir then
      expand_paths_lists (f.bases.map (fun b =>
        entryFindAll b env major minor patch pre dev arch name))
    else
      expand_paths_opt (f.bases.map (fun b =>
        (entryFindAll b env major minor patch pre dev arch name).head?))
  sortDescE pythons

/-- A resolved 3.8.0 location. -/
def locEight : Location :=
  { path := "/opt/pyenv/versions/3.8.0/bin/python",
    as_python := some
      { major := 3
        minor := some 8
        patch := some 0
        name := some "3.8.0" } }

/-- A resolved 3.9.0 location. -/
def locNineZero : Location :=
  { path := "/opt/pyenv/versions/3.9.0/bin/python",
    as_python := some
      { major := 3
        minor := some 9
        patch := some 0
        name := some "3.9.0" } }

/-- The 3.8.0 root entry. -/
def baseEight : RootEntry :=
  { name := "3.8.0", path := "/opt/pyenv/versions/3.8.0/bin",
    pythons := [locEight] }

/-- The 3.9.0 root entry. -/
def baseNine : RootEntry :=
  { name := "3.9.0", path := "/opt/pyenv/versions/3.9.0/bin",
    pythons := [locNineZero] }

/-- A finder enumerating the 3.8.0 root before the 3.9.0 root. -/
def finderEN : Finder := { bases := [baseEight, baseNine], is_dir := true }

/-- A fixed architecture environment for the concrete scenarios. -/
def archEnv64 : ArchEnv := ⟨fun _ => "64bit", "64bit"⟩

/-- C3 counterexample: with no constraint, the engine returns one location
per root but sorted descending by `version_sort` — `[3.9.0, 3.8.0]` — while
the roots' declared precedence order of first picks is `[3.8.0, 3.9.0]`;
the unconstrained result is not in root order. -/
theorem c3_find_all_counterexample :
    find_all_python_versions finderEN archEnv64 none none none none none none none
      = .ok [locNineZero, locEight]
    ∧ expand_paths_opt (finderEN.bases.map (fun b =>
        (entryFindAll b archEnv64 none none none none none none none).head?))
      = [locEight, locNineZero]
    ∧ [locNineZero, locEight] ≠ [locEight, locNineZero] := by
  refine ⟨rfl, rfl, ?_⟩
  decide

/-- The numeric projection of a location's sort key, defined when `minor`
is set (`getD 0` is never the read value on such keys). -/
def keyN (loc : Location) : Nat × Nat × Nat × Nat × Nat :=
  ((locKey loc).companyK, (locKey loc).majorK, (locKey loc).minorK.getD 0,
    (locKey loc).patchK, (locKey loc).releaseK)

/-- Numeric 5-tuples under the lexicographic order. -/
abbrev T5L := Lex (Nat × Lex (Nat × Lex (Nat × Lex (Nat × Nat))))

/-- View a numeric 5-tuple lexicographically. -/
def toL (a : Nat × Nat × Nat × Nat × Nat) : T5L :=
  toLex (a.1, toLex (a.2.1, toLex (a.2.2.1, toLex (a.2.2.2.1, a.2.2.2.2))))

/-- The lexicographic sort key of a location. -/
def keyL (loc : Location) : T5L := toL (keyN loc)

theorem natCmp_lt_iff {a b : Nat} : natCmp a b = .lt ↔ a < b := by
  unfold natCmp
  by_cases h : a < b
  · simp [h]
  · by_cases h2 : b < a <;> simp [h, h2]

theorem natCmp_gt_iff {a b : Nat} : natCmp a b = .gt ↔ b < a := by
  unfold natCmp
  by_cases h : a < b
  · have : ¬ b < a := by omega
    simp [h, this]
  · by_cases h2 : b < a <;> simp [h, h2]

theorem natCmp_eq_iff {a b : Nat} : natCmp a b = .eq ↔ a = b := by
  unfold natCmp
  by_cases h : a < b
  · have : a ≠ b := by omega
    simp [h, this]
  · by_cases h2 : b < a
    · have : a ≠ b := by omega
      simp [h, h2, this]
    · have : a = b := by omega
      simp [h, h2, this]

/-- Sequencing of lexicographic comparison outcomes. -/
def ordThen (o k : Ordering) : Ordering :=
  match o with
  | .eq => k
  | o => o

theorem ordThen_gt {o k : Ordering} :
    ordThen o k = .gt ↔ o = .gt ∨ (o = .eq ∧ k = .gt) := by
  cases o <;> simp [ordThen]

/-- Total lexicographic comparison of numeric 5-tuples. -/
def tcmp (a b : Nat × Nat × Nat × Nat × Nat) : Ordering :=
  ordThen (natCmp a.1 b.1) (ordThen (natCmp a.2.1 b.2.1)
    (ordThen (natCmp a.2.2.1 b.2.2.1) (ordThen (natCmp a.2.2.2.1 b.2.2.2.1)
      (natCmp a.2.2.2.2 b.2.2.2.2))))

/-- On keys whose minor slot is set, the (possibly raising) Python tuple
comparison is the total comparison of the numeric projections. -/
theorem vsCompare_eq_tcmp {k1 k2 : VSKey} {m1 m2 : Nat}
    (h1 : k1.minorK = some m1) (h2 : k2.minorK = some m2) :
    vsCompare k1 k2 = .ok (tcmp
      (k1.companyK, k1.majorK, m1, k1.patchK, k1.releaseK)
      (k2.companyK, k2.majorK, m2, k2.patchK, k2.releaseK)) := by
  unfold vsCompare tcmp ordThen
  rw [h1, h2,
    show optCmpE (some m1) (some m2) = Except.ok (natCmp m1 m2) from rfl]
  cases natCmp k1.companyK k2.companyK <;>
    cases natCmp k1.majorK k2.majorK <;>
      cases natCmp m1 m2 <;>
        cases natCmp k1.patchK k2.patchK <;> rfl

theorem ordThen_gt_iff {x y : Nat} {k : Ordering} {β : Type}
    [LinearOrder β] {p q : β} (hk : k = .gt ↔ q < p) :
    ordThen (natCmp x y) k = .gt ↔ toLex ((y, q) : Nat × β) < toLex (x, p) := by
  rw [ordThen_gt, natCmp_gt_iff, natCmp_eq_iff, Prod.Lex.lt_iff]
  constructor
  · rintro (h | ⟨he, hq⟩)
    · exact Or.inl h
    · exact Or.inr ⟨he.symm, hk.mp hq⟩
  · rintro (h | ⟨he, hq⟩)
    · exact Or.inl h
    · exact Or.inr ⟨he.symm, hk.mpr hq⟩

theorem tcmp_gt_iff {a b : Nat × Nat × Nat × Nat × Nat} :
    tcmp a b = .gt ↔ toL b < toL a := by
  obtain ⟨a1, a2, a3, a4, a5⟩ := a
  obtain ⟨b1, b2, b3, b4, b5⟩ := b
  exact ordThen_gt_iff (ordThen_gt_iff (ordThen_gt_iff
    (ordThen_gt_iff natCmp_gt_iff)))

/-- Pure stable descending insertion into a sorted list. -/
def insertDescP (x : Location) : List Location → List Location
  | [] => [x]
  | y :: ys =>
    if keyL x < keyL y then y :: insertDescP x ys else x :: y :: ys

/-- Pure stable descending sort by the lexicographic key. -/
def sortDescP : List Location → List Location
  | [] => []
  | x :: xs => insertDescP x (sortDescP xs)

/-- Descending sortedness by `version_sort` key: no element is
followed by one with a strictly greater key. -/
def SortedDesc (l : List Location) : Prop :=
  l.Pairwise (fun a b => ¬ keyL a < keyL b)

theorem insertDescP_perm (x : Location) (l : List Location) :
    (insertDescP x l).Perm (x :: l) := by
  induction l with
  | nil => exact List.Perm.refl _
  | cons y ys ih =>
    by_cases hlt : keyL x < keyL y
    · simp only [insertDescP, if_pos hlt]
      exact (ih.cons y).trans (List.Perm.swap _ _ _)
    · simp only [insertDescP, if_neg hlt]
      exact List.Perm.refl _

theorem sortDescP_perm (l : List Location) : (sortDescP l).Perm l := by
  induction l with
  | nil => exact List.Perm.refl _
  | cons x xs ih =>
    exact (insertDescP_perm x (sortDescP xs)).trans (ih.cons x)

theorem insertDescP_sorted (x : Location) (l : List Location)
    (h : SortedDesc l) : SortedDesc (insertDescP x l) := by
  induction l with
  | nil =>
    rw [SortedDesc]
    exact List.pairwise_singleton _ _
  | cons y ys ih =>
    rw [SortedDesc, List.pairwise_cons] at h
    by_cases hlt : keyL x < keyL y
    · simp only [insertDescP, if_pos hlt]
      rw [SortedDesc, List.pairwise_cons]
      refine ⟨?_, ih h.2⟩
      intro z hz
      rcases List.mem_cons.mp ((insertDescP_perm x ys).mem_iff.mp hz)
        with rfl | hmem
      · exact lt_asymm hlt
      · exact h.1 z hmem
    · simp only [insertDescP, if_neg hlt]
      rw [SortedDesc, List.pairwise_cons]
      refine ⟨?_, List.pairwise_cons.mpr h⟩
      intro z hz
      rcases List.mem_cons.mp hz with rfl | hmem
      · exact hlt
      · intro hxz
        exact absurd
          (lt_of_lt_of_le (lt_of_lt_of_le hxz (not_lt.mp (h.1 z hmem)))
            (not_lt.mp hlt))
          (lt_irrefl _)

theorem sortDescP_sorted (l : List Location) : SortedDesc (sortDescP l) := by
  induction l with
  | nil => exact List.Pairwise.nil
  | cons x xs ih => exact insertDescP_sorted x (sortDescP xs) ih

theorem insertDescE_eq_pure (x : Location) (l : List Location)
    (hx : (locKey x).minorK.isSome = true)
    (hl : ∀ y ∈ l, (locKey y).minorK.isSome = true) :
    insertDescE x l = .ok (insertDescP x l) := by
  induction l with
  | nil => rfl
  | cons y ys ih =>
    obtain ⟨m2, hm2⟩ := Option.isSome_iff_exists.mp hx
    obtain ⟨m1, hm1⟩ :=
      Option.isSome_iff_exists.mp (hl y (List.mem_cons_self _ _))
    have hky : ((locKey y).companyK, (locKey y).majorK, m1, (locKey y).patchK,
        (locKey y).releaseK) = keyN y := by
      simp [keyN, hm1]
    have hkx : ((locKey x).companyK, (locKey x).majorK, m2, (locKey x).patchK,
        (locKey x).releaseK) = keyN x := by
      simp [keyN, hm2]
    have hcmp := vsCompare_eq_tcmp hm1 hm2
    rw [hky, hkx] at hcmp
    unfold insertDescE insertDescP
    rw [hcmp]
    by_cases hgt : keyL x < keyL y
    · have hg : tcmp (keyN y) (keyN x) = .gt := tcmp_gt_iff.mpr hgt
      rw [ih (fun z hz => hl z (List.mem_cons_of_mem _ hz))]
      simp [hg, hgt, Except.map]
    · have hg : tcmp (keyN y) (keyN x) ≠ .gt := fun hh => hgt (tcmp_gt_iff.mp hh)
      simp [hg, hgt]

theorem sortDescE_eq_pure (l : List Location)
    (hl : ∀ y ∈ l, (locKey y).minorK.isSome = true) :
    sortDescE l = .ok (sortDescP l) := by
  induction l with
  | nil => rfl
  | cons x xs ih =>
    have hxs := ih (fun z hz => hl z (List.mem_cons_of_mem _ hz))
    unfold sortDescE sortDescP
    rw [hxs]
    exact insertDescE_eq_pure x (sortDescP xs) (hl x (List.mem_cons_self _ _))
      (fun z hz => hl z (List.mem_cons_of_mem _ ((sortDescP_perm xs).mem_iff.mp hz)))

theorem head?_mem {α : Type} {l : List α} {x : α} (h : l.head? = some x) :
    x ∈ l := by
  cases l with
  | nil => cases h
  | cons a as =>
    simp only [List.head?_cons, Option.some.injEq] at h
    rw [← h]
    exact List.mem_cons_self _ _

theorem mem_expand_paths_opt {l : List (Option Location)} {loc : Location} :
    loc ∈ expand_paths_opt l
      ↔ some loc ∈ l ∧ loc.as_python.isSome = true := by
  unfold expand_paths_opt
  rw [List.mem_filter]
  simp only [List.mem_filterMap, id_eq]
  constructor
  · rintro ⟨⟨b, hb, hbe⟩, hs⟩
    exact ⟨hbe ▸ hb, hs⟩
  · rintro ⟨hm, hs⟩
    exact ⟨⟨some loc, hm, rfl⟩, hs⟩

theorem mem_expand_paths_lists {l : List (List Location)} {loc : Location} :
    loc ∈ expand_paths_lists l
      ↔ (∃ li ∈ l, loc ∈ li) ∧ loc.as_python.isSome = true := by
  unfold expand_paths_lists
  rw [List.mem_filter, List.mem_flatten]

theorem mem_entryFindAll {b : RootEntry} {env : ArchEnv}
    {major minor patch : Option Nat} {pre dev : Option Bool}
    {arch name : Option String} {loc : Location} :
    loc ∈ entryFindAll b env major minor patch pre dev arch name
      ↔ loc ∈ b.pythons ∧ ∃ v, loc.as_python = some v
          ∧ matchesD v env major minor patch pre dev arch name = true := by
  unfold entryFindAll
  rw [List.mem_filter]
  constructor
  · rintro ⟨hm, hp⟩
    refine ⟨hm, ?_⟩
    cases hv : loc.as_python with
    | none => rw [hv] at hp; cases hp
    | some v =>
      rw [hv] at hp
      exact ⟨v, rfl, hp⟩
  · rintro ⟨hm, v, hv, hmt⟩
    refine ⟨hm, ?_⟩
    rw [hv]
    exact hmt

theorem length_expand_paths_opt_le (l : List (Option Location)) :
    (expand_paths_opt l).length ≤ l.length := by
  unfold expand_paths_opt
  exact le_trans (List.length_filter_le _ _) (List.length_filterMap_le _ _)

/-- C3 (amended): assuming every resolved executable version under the
finder's roots has its minor set (so Python's key comparisons are
defined), `find_all_python_versions` succeeds; its result is sorted
descending by `version_sort` in **both** branches; with no truthy
major/minor/patch/name argument it holds at most one location per
enumerated root — each element being the first executable of some root's
enumeration — but in rank order, not root order; and with a truthy
constraint every returned location carries a resolved version matching
the predicate. -/
theorem c3_find_all_python_versions_amended (f : Finder) (env : ArchEnv)
    (major minor patch : Option Nat) (pre dev : Option Bool)
    (arch name : Option String)
    (hminors : ∀ b ∈ f.bases, ∀ loc ∈ b.pythons,
      Option.all (fun v => v.minor.isSome) loc.as_python = true) :
    ∃ l, find_all_python_versions f env major minor patch pre dev arch name
        = .ok l
      ∧ SortedDesc l
      ∧ ((truthyNat major || truthyNat minor || truthyNat patch
            || strTruthy name) = false →
          l.length ≤ f.bases.length
          ∧ ∀ loc ∈ l, ∃ b ∈ f.bases,
              (entryFindAll b env none none none none none none none).head?
                = some loc)
      ∧ ((truthyNat major || truthyNat minor || truthyNat patch
            || strTruthy name) = true →
          ∀ loc ∈ l, ∃ v, loc.as_python = some v
            ∧ matchesD v env major minor patch pre dev arch name = true) := by
  have hminors' : ∀ b ∈ f.bases, ∀ loc ∈ b.pythons, ∀ v : PythonVersion,
      loc.as_python = some v → v.minor.isSome = true := by
    intro b hb loc hloc v hv
    have := hminors b hb loc hloc
    rw [hv] at this
    exact this
  have hkey : ∀ loc : Location, loc.as_python.isSome = true →
      (∀ v : PythonVersion, loc.as_python = some v → v.minor.isSome = true) →
      (locKey loc).minorK.isSome = true := by
    intro loc hs hv
    obtain ⟨v, hveq⟩ := Option.isSome_iff_exists.mp hs
    have h1 : (locKey loc).minorK = v.minor := by
      rw [show (locKey loc).minorK = (loc.as_python.getD {}).minor from rfl,
        hveq]
      rfl
    rw [h1]
    exact hv v hveq
  by_cases hc : (truthyNat major || truthyNat minor || truthyNat patch
      || strTruthy name) = true
  · by_cases hd : f.is_dir = true
    · have hfa : find_all_python_versions f env major minor patch pre dev arch
          name = sortDescE (expand_paths_lists (f.bases.map (fun b =>
            entryFindAll b env major minor patch pre dev arch name))) := by
        unfold find_all_python_versions
        rw [hc, hd]
        rfl
      have hall : ∀ loc ∈ expand_paths_lists (f.bases.map (fun b =>
          entryFindAll b env major minor patch pre dev arch name)),
          (locKey loc).minorK.isSome = true := by
        intro loc hloc
        obtain ⟨⟨li, hli, hl2⟩, hs⟩ := mem_expand_paths_lists.mp hloc
        obtain ⟨b, hb, hbe⟩ := List.mem_map.mp hli
        have hlp : loc ∈ b.pythons := (mem_entryFindAll.mp (hbe ▸ hl2)).1
        exact hkey loc hs (hminors' b hb loc hlp)
      refine ⟨sortDescP _, by rw [hfa]; exact sortDescE_eq_pure _ hall,
        sortDescP_sorted _, ?_, ?_⟩
      · intro hcc
        rw [hc] at hcc
        cases hcc
      · intro hcc loc hloc
        have hmem := (sortDescP_perm _).mem_iff.mp hloc
        obtain ⟨⟨li, hli, hl2⟩, hs⟩ := mem_expand_paths_lists.mp hmem
        obtain ⟨b, hb, hbe⟩ := List.mem_map.mp hli
        exact (mem_entryFindAll.mp (hbe ▸ hl2)).2
    · have hd' : f.is_dir = false := by
        rwa [Bool.not_eq_true] at hd
      have hfa : find_all_python_versions f env major minor patch pre dev arch
          name = sortDescE (expand_paths_opt (f.bases.map (fun b =>
            (entryFindAll b env major minor patch pre dev arch name).head?))) := by
        unfold find_all_python_versions
        rw [hc, hd']
        rfl
      have hall : ∀ loc ∈ expand_paths_opt (f.bases.map (fun b =>
          (entryFindAll b env major minor patch pre dev arch name).head?)),
          (locKey loc).minorK.isSome = true := by
        intro loc hloc
        obtain ⟨hm, hs⟩ := mem_expand_paths_opt.mp hloc
        obtain ⟨b, hb, hbe⟩ := List.mem_map.mp hm
        have hlp : loc ∈ b.pythons :=
          (mem_entryFindAll.mp (head?_mem hbe)).1
        exact hkey loc hs (hminors' b hb loc hlp)
      refine ⟨sortDescP _, by rw [hfa]; exact sortDescE_eq_pure _ hall,
        sortDescP_sorted _, ?_, ?_⟩
      · intro hcc
        rw [hc] at hcc
        cases hcc
      · intro hcc loc hloc
        have hmem := (sortDescP_perm _).mem_iff.mp hloc
        obtain ⟨hm, hs⟩ := mem_expand_paths_opt.mp hmem
        obtain ⟨b, hb, hbe⟩ := List.mem_map.mp hm
        exact (mem_entryFindAll.mp (head?_mem hbe)).2
  · have hcf : (truthyNat major || truthyNat minor || truthyNat patch
        || strTruthy name) = false := by
      rwa [Bool.not_eq_true] at hc
    have hfa : find_all_python_versions f env major minor patch pre dev arch
        name = sortDescE (expand_paths_opt (f.bases.map (fun b =>
          (entryFindAll b env none none none none none none none).head?))) := by
      unfold find_all_python_versions
      rw [hcf]
      rfl
    have hall : ∀ loc ∈ expand_paths_opt (f.bases.map (fun b =>
        (entryFindAll b env none none none none none none none).head?)),
        (locKey loc).minorK.isSome = true := by
      intro loc hloc
      obtain ⟨hm, hs⟩ := mem_expand_paths_opt.mp hloc
      obtain ⟨b, hb, hbe⟩ := List.mem_map.mp hm
      have hlp : loc ∈ b.pythons :=
        (mem_entryFindAll.mp (head?_mem hbe)).1
      exact hkey loc hs (hminors' b hb loc hlp)
    refine ⟨sortDescP _, by rw [hfa]; exact sortDescE_eq_pure _ hall,
      sortDescP_sorted _, ?_, ?_⟩
    · intro _
      constructor
      · rw [(sortDescP_perm _).length_eq]
        exact le_trans (length_expand_paths_opt_le _)
          (le_of_eq (List.length_map _ _))
      · intro loc hloc
        have hmem := (sortDescP_perm _).mem_iff.mp hloc
        obtain ⟨hm, hs⟩ := mem_expand_paths_opt.mp hmem
        obtain ⟨b, hb, hbe⟩ := List.mem_map.mp hm
        exact ⟨b, hb, hbe⟩
    · intro hcc
      rw [hcc] at hcf
      cases hcf

/-- Witness for C3 (amended) at concrete inputs: the two-root finder
queried with `minor=9`. -/
theorem c3_find_all_python_versions_amended_witness :
    ∃ l, find_all_python_versions finderEN archEnv64 none (some 9) none none
        none none none = .ok l
      ∧ SortedDesc l
      ∧ ((truthyNat none || truthyNat (some 9) || truthyNat none
            || strTruthy none) = false →
          l.length ≤ finderEN.bases.length
          ∧ ∀ loc ∈ l, ∃ b ∈ finderEN.bases,
              (entryFindAll b archEnv64 none none none none none none
                none).head? = some loc)
      ∧ ((truthyNat none || truthyNat (some 9) || truthyNat none
            || strTruthy none) = true →
          ∀ loc ∈ l, ∃ v, loc.as_python = some v
            ∧ matchesD v archEnv64 none (some 9) none none none none none
                = true) :=
  c3_find_all_python_versions_amended finderEN archEnv64 none (some 9) none
    none none none none (by decide)

end PythonFinderModel

